import Mathlib

/-!
Verification of binnr, supervised binning by information value (`src/bin.c`).

A shallow embedding of `bin`, `find_best_split`, `calc_iv` and `calc_sv_woe`.

Numbers.

C `double` values are embedded as `Dbl K`: the three IEEE-754 special values
(`nan`, `ninf`, `pinf`) and the finite values, which are elements of an ordered
field `K`.  The operations `Dbl.add`, `Dbl.sub`, `Dbl.mul`, `Dbl.div` give the exact
result of an operation; on the special values they follow IEEE-754 / C99 Annex F
(`x/0`, `0/0`, `inf - inf`, `0 * inf`, comparisons with NaN).

The functions `calc_iv` and `calc_sv_woe` divide, subtract, multiply and add shares
that are not integers and take logarithms, and each of these operations rounds.  They
are therefore evaluated in an arithmetic `A : arith K`, a parameter of every definition
that calls them: an operation returns its exact result when that is a special value or
zero, and the double `A.rnd x` when its exact result is the finite non-zero number `x`;
the library `log` returns `A.ln x` for a finite positive `x`.  A theorem stated for
every `A` holds whatever the rounding: for the round-to-nearest arithmetic of binary64
(`ieee`, over `ℚ`) and for the arithmetic `exact_arith ln` that rounds nothing.  The
statements about the sign and the size of the finite values that these functions return
are made for `exact_arith ln`, for every `ln : K → K` (`K = ℚ` with a computable `ln`
for evaluation, `K = ℝ` with `Real.log` for the analytic reading).

The counts that `find_best_split` adds up and subtracts (`asc_cnts`, `dsc_cnts`, the
two population tests) are integers below `2^53`, on which the addition and the
subtraction of doubles are exact in every rounding mode: they are computed with
`Dbl.add` and `Dbl.sub`.  Every zero that the program divides by is a sum or
difference of non-negative counts, hence `+0`; the sign of zero is therefore not
represented.

Indices.

`start`, `stop`, the loop index and the split index are natural numbers; the sentinel
`(size_t) -1` returned by `find_best_split` for "no split" is `none`.
-/

set_option linter.dupNamespace false
set_option linter.unusedSectionVars false

namespace Binnr

/-- A C `double`: NaN, the two infinities, or a finite value of the field `K`. -/
inductive Dbl (K : Type) where
  | nan : Dbl K
  | ninf : Dbl K
  | pinf : Dbl K
  | fin (x : K) : Dbl K
  deriving DecidableEq, Repr

/-- The floating-point arithmetic in which `calc_iv` and `calc_sv_woe` are evaluated:
`rnd x` is the double that an operation returns when its exact result is the finite
non-zero number `x` (a finite double, or an infinity on overflow), and `ln x` is the
value that the C library `log` returns for the finite positive argument `x`. -/
structure arith (K : Type) where
  rnd : K → Dbl K
  ln : K → K

namespace Dbl

variable {K : Type} [LinearOrderedField K]

/-- Conversion of a count (`size_t`, `int` >= 0) to `double`. -/
def ofNat (n : Nat) : Dbl K := fin (n : K)

/-- Conversion of an `int` to `double`. -/
def ofInt (n : Int) : Dbl K := fin (n : K)

/-- Unary minus. -/
def neg : Dbl K → Dbl K
  | nan => nan
  | ninf => pinf
  | pinf => ninf
  | fin x => fin (-x)

/-- The exact sum of two doubles: `inf + -inf` is NaN. -/
def add : Dbl K → Dbl K → Dbl K
  | fin a, fin b => fin (a + b)
  | fin _, pinf => pinf
  | fin _, ninf => ninf
  | pinf, fin _ => pinf
  | pinf, pinf => pinf
  | ninf, fin _ => ninf
  | ninf, ninf => ninf
  | _, _ => nan

/-- The exact difference of two doubles. -/
def sub (a b : Dbl K) : Dbl K := add a (neg b)

/-- The exact product of two doubles: `0 * inf` is NaN. -/
def mul : Dbl K → Dbl K → Dbl K
  | fin a, fin b => fin (a * b)
  | fin a, pinf => if 0 < a then pinf else if a < 0 then ninf else nan
  | fin a, ninf => if 0 < a then ninf else if a < 0 then pinf else nan
  | pinf, fin b => if 0 < b then pinf else if b < 0 then ninf else nan
  | ninf, fin b => if 0 < b then ninf else if b < 0 then pinf else nan
  | pinf, pinf => pinf
  | pinf, ninf => ninf
  | ninf, pinf => ninf
  | ninf, ninf => pinf
  | _, _ => nan

/-- The exact quotient of two doubles: `x / 0` is an infinity with the sign of `x`,
`0 / 0` and `inf / inf` are NaN, a finite value over an infinity is zero. -/
def div : Dbl K → Dbl K → Dbl K
  | fin a, fin b =>
    if b = 0 then (if 0 < a then pinf else if a < 0 then ninf else nan) else fin (a / b)
  | fin _, pinf => fin 0
  | fin _, ninf => fin 0
  | pinf, fin b => if b < 0 then ninf else pinf
  | ninf, fin b => if b < 0 then pinf else ninf
  | _, _ => nan

/-- The C library `log`: `log(+inf) = +inf`, `log(0) = -inf`, NaN for a negative
argument or NaN; `ln` is the logarithm of a finite positive number. -/
def log (ln : K → K) : Dbl K → Dbl K
  | fin a => if a < 0 then nan else if a = 0 then ninf else fin (ln a)
  | pinf => pinf
  | _ => nan

/-- The comparison `a < b` of doubles: false when either side is NaN. -/
def lt : Dbl K → Dbl K → Bool
  | fin a, fin b => decide (a < b)
  | fin _, pinf => true
  | ninf, fin _ => true
  | ninf, pinf => true
  | _, _ => false

/-- The comparison `a > b` of doubles. -/
def gt (a b : Dbl K) : Bool := lt b a

/-- The comparison `a <= b` of doubles: false when either side is NaN. -/
def le : Dbl K → Dbl K → Bool
  | fin a, fin b => decide (a ≤ b)
  | fin _, pinf => true
  | ninf, fin _ => true
  | ninf, pinf => true
  | ninf, ninf => true
  | pinf, pinf => true
  | _, _ => false

/-- The comparison `a == b` of doubles: false when either side is NaN. -/
def eq : Dbl K → Dbl K → Bool
  | fin a, fin b => decide (a = b)
  | pinf, pinf => true
  | ninf, ninf => true
  | _, _ => false

/-- The C macro `isinf`. -/
def isinf : Dbl K → Bool
  | pinf => true
  | ninf => true
  | _ => false

/-- The C macro `isnan`. -/
def isnan : Dbl K → Bool
  | nan => true
  | _ => false

/-- A double is finite when it is neither an infinity nor NaN. -/
def isfinite : Dbl K → Bool
  | fin _ => true
  | _ => false

/-- The double that an operation returns, given its exact result: a special value and
zero are returned as they are, a finite non-zero result is rounded. -/
def round (A : arith K) : Dbl K → Dbl K
  | fin x => if x = 0 then fin 0 else A.rnd x
  | nan => nan
  | ninf => ninf
  | pinf => pinf

/-- The operation `a / b` on doubles in the arithmetic `A`. -/
def rdiv (A : arith K) (a b : Dbl K) : Dbl K := round A (div a b)

/-- The operation `a * b` on doubles in the arithmetic `A`. -/
def rmul (A : arith K) (a b : Dbl K) : Dbl K := round A (mul a b)

/-- The operation `a - b` on doubles in the arithmetic `A`. -/
def rsub (A : arith K) (a b : Dbl K) : Dbl K := round A (sub a b)

/-- The operation `a + b` on doubles in the arithmetic `A`. -/
def radd (A : arith K) (a b : Dbl K) : Dbl K := round A (add a b)

end Dbl

/-- Modelled from the spec: `struct xtab` (declared in `xtab.h`, built by
`xtab_factory`), the crosstab: per distinct predictor value the value itself and the
tallies of outcome 0 and outcome 1, as parallel arrays of `size` entries. -/
structure xtab (K : Type) where
  values : List (Dbl K)
  zero_ct : List Nat
  ones_ct : List Nat
  size : Nat

/-- The arrays of a crosstab have `size` entries each. -/
def xtab.wf {K : Type} (xt : xtab K) : Prop :=
  xt.values.length = xt.size ∧ xt.zero_ct.length = xt.size ∧ xt.ones_ct.length = xt.size

/-- Modelled from the spec: `struct work` (declared in `queue.h`), an inclusive index
range `[start, stop]` of crosstab rows. -/
structure work where
  start : Nat
  stop : Nat
  deriving DecidableEq, Repr

/-- Modelled from the spec: `struct opts` (declared in `bin.h`). -/
structure opts (K : Type) where
  max_bin : Int
  min_cnt : Int
  min_iv : Dbl K
  mono : Int

/-- Modelled from the spec: `struct iv` (declared in `bin.h`), the result of
`calc_iv`. -/
structure iv (K : Type) where
  asc_woe : Dbl K
  dsc_woe : Dbl K
  iv : Dbl K

variable {K : Type} [LinearOrderedField K]

/-- Number of observations with outcome 0 in rows `a, ..., b - 1`. -/
def zero_sum (xt : xtab K) (a b : Nat) : Nat :=
  ((List.range' a (b - a)).map (fun i => xt.zero_ct.getD i 0)).sum

/-- Number of observations with outcome 1 in rows `a, ..., b - 1`. -/
def ones_sum (xt : xtab K) (a b : Nat) : Nat :=
  ((List.range' a (b - a)).map (fun i => xt.ones_ct.getD i 0)).sum

/-- Modelled from the spec: `get_xtab_totals(xtab, a, b)` (defined with the crosstab,
not in `bin.c`): the totals of the two count columns over rows `a, ..., b - 1`, as a
`double[2]`. -/
def get_xtab_totals (xt : xtab K) (a b : Nat) : Dbl K × Dbl K :=
  (Dbl.ofNat (zero_sum xt a b), Dbl.ofNat (ones_sum xt a b))

/-- The arithmetic that rounds nothing: every operation returns its exact result, and
`ln` is the logarithm of a finite positive number. -/
def exact_arith (ln : K → K) : arith K := { rnd := Dbl.fin, ln := ln }

/-- The function `calc_iv` of `bin.c`, evaluated in the arithmetic `A`: weight of
evidence of both sides of a cut and the information value of the cut. -/
def calc_iv (A : arith K) (asc_cnts dsc_cnts tots : Dbl K × Dbl K) : iv K :=
  let asc_woe := Dbl.log A.ln
    (Dbl.rdiv A (Dbl.rdiv A asc_cnts.1 tots.1) (Dbl.rdiv A asc_cnts.2 tots.2))
  let dsc_woe := Dbl.log A.ln
    (Dbl.rdiv A (Dbl.rdiv A dsc_cnts.1 tots.1) (Dbl.rdiv A dsc_cnts.2 tots.2))
  let asc_iv := Dbl.rmul A asc_woe
    (Dbl.rsub A (Dbl.rdiv A asc_cnts.1 tots.1) (Dbl.rdiv A asc_cnts.2 tots.2))
  let dsc_iv := Dbl.rmul A dsc_woe
    (Dbl.rsub A (Dbl.rdiv A dsc_cnts.1 tots.1) (Dbl.rdiv A dsc_cnts.2 tots.2))
  { asc_woe := asc_woe, dsc_woe := dsc_woe, iv := Dbl.radd A asc_iv dsc_iv }

/-- One iteration of the loop of `calc_sv_woe` for the observation `i`: `acc` holds
`(zero_ct, ones_ct)`. -/
def calc_sv_woe_body (dx dy : List (Dbl K)) (value : Dbl K) (acc : Dbl K × Dbl K)
    (i : Nat) : Dbl K × Dbl K :=
  if Dbl.eq (dx.getD i Dbl.nan) value then
    (Dbl.add acc.1 (if Dbl.eq (dy.getD i Dbl.nan) (Dbl.fin 0) then Dbl.fin 1 else Dbl.fin 0),
     Dbl.add acc.2 (if Dbl.eq (dy.getD i Dbl.nan) (Dbl.fin 1) then Dbl.fin 1 else Dbl.fin 0))
  else acc

/-- The function `calc_sv_woe` of `bin.c`, evaluated in the arithmetic `A`: the
logarithm of the ratio of the share of outcome 1 to the share of outcome 0 among the
observations with `dx[i] == value`. -/
def calc_sv_woe (A : arith K) (dx dy : List (Dbl K)) (size : Nat) (value : Dbl K)
    (tots : Dbl K × Dbl K) : Dbl K :=
  let cnt := (List.range size).foldl (calc_sv_woe_body dx dy value) (Dbl.fin 0, Dbl.fin 0)
  Dbl.log A.ln (Dbl.rdiv A (Dbl.rdiv A cnt.2 tots.2) (Dbl.rdiv A cnt.1 tots.1))

/-- The variables of `find_best_split` that live across iterations of its loop. -/
structure fbs_state (K : Type) where
  asc_cnts : Dbl K × Dbl K
  best_iv : Dbl K
  best_split_idx : Option Nat

/-- The local `woe_sign` of `find_best_split`: `+1` if `asc_woe > dsc_woe`, else
`-1`. -/
def woe_sign (v : iv K) : Int := if Dbl.gt v.asc_woe v.dsc_woe then 1 else -1

/-- The value of the local `valid` of `find_best_split` after the chain of tests of
one iteration: `-1` when the cut is rejected, `0` otherwise. -/
def fbs_valid (asc_cnts dsc_cnts : Dbl K × Dbl K) (v : iv K) (o : opts K) : Int :=
  if Dbl.lt (Dbl.add asc_cnts.1 asc_cnts.2) (Dbl.ofInt o.min_cnt) then -1
  else if Dbl.lt (Dbl.add dsc_cnts.1 dsc_cnts.2) (Dbl.ofInt o.min_cnt) then -1
  else if Dbl.lt v.iv o.min_iv then -1
  else if Dbl.isinf v.iv then -1
  else if o.mono ≠ 0 then (if woe_sign v ≠ o.mono then -1 else 0)
  else 0

/-- One iteration of the loop of `find_best_split`, for the index `i`. -/
def fbs_body (A : arith K) (xt : xtab K) (tot grand_tot : Dbl K × Dbl K) (o : opts K)
    (st : fbs_state K) (i : Nat) : fbs_state K :=
  let asc_cnts : Dbl K × Dbl K :=
    (Dbl.add st.asc_cnts.1 (Dbl.ofNat (xt.zero_ct.getD i 0)),
     Dbl.add st.asc_cnts.2 (Dbl.ofNat (xt.ones_ct.getD i 0)))
  let dsc_cnts : Dbl K × Dbl K :=
    (Dbl.sub tot.1 asc_cnts.1, Dbl.sub tot.2 asc_cnts.2)
  let v := calc_iv A asc_cnts dsc_cnts grand_tot
  let valid := fbs_valid asc_cnts dsc_cnts v o
  if valid ≠ -1 ∧ Dbl.gt v.iv st.best_iv = true then
    { asc_cnts := asc_cnts, best_iv := v.iv, best_split_idx := some i }
  else
    { asc_cnts := asc_cnts, best_iv := st.best_iv, best_split_idx := st.best_split_idx }

/-- The state of `find_best_split` before its loop. -/
def fbs_init : fbs_state K :=
  { asc_cnts := (Dbl.fin 0, Dbl.fin 0), best_iv := Dbl.fin (-1), best_split_idx := none }

/-- The function `find_best_split` of `bin.c`: the loop runs over
`i = start, ..., stop`; the result is `none` for the sentinel `(size_t) -1`. -/
def find_best_split (A : arith K) (start stop : Nat) (xt : xtab K)
    (grand_tot : Dbl K × Dbl K) (o : opts K) : Option Nat :=
  let tot := get_xtab_totals xt start (stop + 1)
  ((List.range' start (stop + 1 - start)).foldl
    (fbs_body A xt tot grand_tot o) fbs_init).best_split_idx

/-- The variables of `bin` that change in its driver loop: the work queue (a strict
FIFO), the `breaks` array and the bin counter `num_bins`. -/
structure bin_state where
  q : List work
  breaks : List Nat
  num_bins : Int
  deriving DecidableEq, Repr

/-- Modelled from the spec: `enqueue` of `queue.h`, which appends at the back of the
FIFO. -/
def enqueue (q : List work) (w : work) : List work := q ++ [w]

/-- The state of `bin` before its driver loop: the whole range `[0, size - 1]` is
queued, `breaks` is `calloc`-ed (all zero), `num_bins = 1`.  The crosstab has at least
one row (`bin` is called with non-empty `x`). -/
def bin_init (xt : xtab K) : bin_state :=
  { q := enqueue [] { start := 0, stop := xt.size - 1 },
    breaks := List.replicate xt.size 0,
    num_bins := 1 }

/-- One iteration of the driver loop `while(!is_empty(q))` of `bin`; a state whose
queue is empty has left the loop and is returned unchanged. -/
def bin_step (A : arith K) (xt : xtab K) (grand_tots : Dbl K × Dbl K) (o : opts K)
    (st : bin_state) : bin_state :=
  match st.q with
  | [] => st
  | w :: rest =>
    match find_best_split A w.start w.stop xt grand_tots o with
    | some split =>
      if st.num_bins < o.max_bin then
        { q := enqueue (enqueue rest { start := w.start, stop := split })
            { start := split + 1, stop := w.stop },
          breaks := st.breaks.set split 1,
          num_bins := st.num_bins + 1 }
      else { q := rest, breaks := st.breaks, num_bins := st.num_bins }
    | none => { q := rest, breaks := st.breaks, num_bins := st.num_bins }

/-- The state of the driver loop after at most `n` iterations. -/
def bin_iter (A : arith K) (xt : xtab K) (grand_tots : Dbl K × Dbl K) (o : opts K) :
    Nat → bin_state → bin_state
  | 0, st => st
  | n + 1, st => bin_iter A xt grand_tots o n (bin_step A xt grand_tots o st)

/-- A number of iterations after which the driver loop has always left: one dequeue
for the initial item and two for each of the at most `max_bin - 1` accepted splits. -/
def bin_fuel (o : opts K) : Nat := 2 * (o.max_bin - 1).toNat + 1

/-- The grand totals computed by `bin`: `get_xtab_totals(xtab, 0, xtab->size)`. -/
def grand_tots (xt : xtab K) : Dbl K × Dbl K := get_xtab_totals xt 0 xt.size

/-- The state of `bin` when its driver loop has left. -/
def bin_final (A : arith K) (xt : xtab K) (o : opts K) : bin_state :=
  bin_iter A xt (grand_tots xt) o (bin_fuel o) (bin_init xt)

/-- One iteration of the assembly loop of `bin` for row `i`: `j` is the last slot
written, `r` the result array. -/
def assemble_body (xt : xtab K) (breaks : List Nat)
    (acc : Nat × List (Option (Dbl K))) (i : Nat) : Nat × List (Option (Dbl K)) :=
  if breaks.getD i 0 = 1 then
    (acc.1 + 1, acc.2.set (acc.1 + 1) (some (xt.values.getD i Dbl.nan)))
  else acc

/-- The result array of `bin`: `allocVector(REALSXP, num_bins + 1)` gives
`num_bins + 1` slots that hold nothing yet (`none`), slot 0 receives `R_NegInf`, and
the assembly loop stores the value of each marked row in the next slot. -/
def assemble (xt : xtab K) (breaks : List Nat) (num_bins : Int) :
    List (Option (Dbl K)) :=
  let r := (List.replicate (num_bins + 1).toNat none).set 0 (some Dbl.ninf)
  ((List.range xt.size).foldl (assemble_body xt breaks) (0, r)).2

/-- The function `bin` of `bin.c`, from the crosstab on: the array it returns. -/
def bin (A : arith K) (xt : xtab K) (o : opts K) : List (Option (Dbl K)) :=
  let st := bin_final A xt o
  assemble xt st.breaks st.num_bins

/-- The rows marked in `breaks`, in ascending order: the indices `i < size` with
`breaks[i] == 1`. -/
def marked_rows (xt : xtab K) (breaks : List Nat) : List Nat :=
  (List.range xt.size).filter (fun i => breaks.getD i 0 = 1)

/-- The values of the rows marked in `breaks`, in ascending row order. -/
def marked_values (xt : xtab K) (breaks : List Nat) : List (Dbl K) :=
  (marked_rows xt breaks).map (fun i => xt.values.getD i Dbl.nan)

/-- Number of rows marked in `breaks`. -/
def marked_count (xt : xtab K) (breaks : List Nat) : Nat := (marked_rows xt breaks).length

/-! ## Closed forms of the quantities of one iteration of `find_best_split` -/

/-- Total population (both outcomes) of rows `a, ..., b - 1`. -/
def population (xt : xtab K) (a b : Nat) : Nat := zero_sum xt a b + ones_sum xt a b

/-- The array `asc_cnts` in iteration `i` of `find_best_split(start, stop, ...)`: the
counts of rows `start, ..., i`. -/
def asc_at (xt : xtab K) (start i : Nat) : Dbl K × Dbl K :=
  get_xtab_totals xt start (i + 1)

/-- The array `dsc_cnts` in iteration `i` of `find_best_split(start, stop, ...)`:
`tot - asc_cnts`, componentwise. -/
def dsc_at (xt : xtab K) (start stop i : Nat) : Dbl K × Dbl K :=
  (Dbl.sub (get_xtab_totals xt start (stop + 1)).1 (asc_at xt start i).1,
   Dbl.sub (get_xtab_totals xt start (stop + 1)).2 (asc_at xt start i).2)

/-- The result of `calc_iv` in iteration `i` of `find_best_split(start, stop, ...)`. -/
def cut_iv (A : arith K) (xt : xtab K) (grand_tot : Dbl K × Dbl K) (start stop i : Nat) :
    iv K :=
  calc_iv A (asc_at xt start i) (dsc_at xt start stop i) grand_tot

/-- The test `valid != -1` in iteration `i` of `find_best_split(start, stop, ...)`. -/
def cut_valid (A : arith K) (xt : xtab K) (grand_tot : Dbl K × Dbl K) (o : opts K)
    (start stop i : Nat) : Bool :=
  decide (fbs_valid (asc_at xt start i) (dsc_at xt start stop i)
    (cut_iv A xt grand_tot start stop i) o ≠ -1)

/-- The validity gating of a cut in the words of the specification (step 3f): a cut
is invalid if any of the five conditions holds, and valid otherwise. -/
def spec_valid (A : arith K) (xt : xtab K) (grand_tot : Dbl K × Dbl K) (o : opts K)
    (start stop i : Nat) : Prop :=
  ¬ ((population xt start (i + 1) : Int) < o.min_cnt
    ∨ (population xt (i + 1) (stop + 1) : Int) < o.min_cnt
    ∨ Dbl.lt (cut_iv A xt grand_tot start stop i).iv o.min_iv = true
    ∨ Dbl.isinf (cut_iv A xt grand_tot start stop i).iv = true
    ∨ (o.mono ≠ 0 ∧ woe_sign (cut_iv A xt grand_tot start stop i) ≠ o.mono))

/-! ## Auxiliary definitions for the proofs -/

/-- The state of `find_best_split(start, stop, ...)` after the iterations for
`i = start, ..., start + n - 1`. -/
def fbs_run (A : arith K) (xt : xtab K) (grand_tot : Dbl K × Dbl K) (o : opts K)
    (start stop n : Nat) : fbs_state K :=
  (List.range' start n).foldl
    (fbs_body A xt (get_xtab_totals xt start (stop + 1)) grand_tot o) fbs_init

/-- What the loop of `find_best_split` has established after `n` iterations. -/
structure fbs_inv (A : arith K) (xt : xtab K) (grand_tot : Dbl K × Dbl K) (o : opts K)
    (start stop n : Nat) (st : fbs_state K) : Prop where
  best_fin : ∃ x : K, st.best_iv = Dbl.fin x ∧ -1 ≤ x
  no_better : ∀ j, start ≤ j → j < start + n →
    cut_valid A xt grand_tot o start stop j = true →
    Dbl.gt (cut_iv A xt grand_tot start stop j).iv st.best_iv = false
  none_best : st.best_split_idx = none → st.best_iv = Dbl.fin (-1)
  some_best : ∀ s, st.best_split_idx = some s →
    start ≤ s ∧ s < start + n ∧ cut_valid A xt grand_tot o start stop s = true
    ∧ st.best_iv = (cut_iv A xt grand_tot start stop s).iv
    ∧ Dbl.gt (cut_iv A xt grand_tot start stop s).iv (Dbl.fin (-1)) = true
    ∧ ∀ j, start ≤ j → j < s → cut_valid A xt grand_tot o start stop j = true →
        Dbl.isnan (cut_iv A xt grand_tot start stop j).iv = true
        ∨ Dbl.lt (cut_iv A xt grand_tot start stop j).iv
            (cut_iv A xt grand_tot start stop s).iv = true

/-- The invariant of the driver loop: the bin counter is at least 1, the number of
marked rows is at most `num_bins - 1`, and `breaks` keeps its `size` entries. -/
def bin_inv (xt : xtab K) (st : bin_state) : Prop :=
  1 ≤ st.num_bins ∧ (marked_count xt st.breaks : Int) ≤ st.num_bins - 1
    ∧ st.breaks.length = xt.size

/-- The quantity that every iteration of the driver loop decreases. -/
def bin_measure (o : opts K) (st : bin_state) : Nat :=
  st.q.length + 2 * (o.max_bin - st.num_bins).toNat

/-- Storing the values `vs` in the slots `j + 1, j + 2, ...` of `r`, one after the
other. -/
def put : List (Option (Dbl K)) → Nat → List (Dbl K) → List (Option (Dbl K))
  | r, _, [] => r
  | r, j, v :: vs => put (r.set (j + 1) (some v)) (j + 1) vs

/-! ## Concrete inputs -/

/-- A computable stand-in for the natural logarithm on the rationals, the first term
of the series `ln q = 2 * artanh ((q - 1) / (q + 1))`: increasing on the positive
rationals, zero at 1, and `ln_q (1 / q) = - ln_q q`. -/
def ln_q (q : ℚ) : ℚ := 2 * (q - 1) / (q + 1)

/-- The arithmetic on the rationals that rounds nothing, with the logarithm `ln_q`. -/
def exact_q : arith ℚ := exact_arith ln_q

/-- The crosstab of a predictor with the three values 1, 2, 3 observed 4, 10 and 5
times, with 3, 5 and 1 observations of outcome 0. -/
def xtab_three : xtab ℚ :=
  { values := [Dbl.fin 1, Dbl.fin 2, Dbl.fin 3],
    zero_ct := [3, 5, 1],
    ones_ct := [1, 5, 4],
    size := 3 }

/-- The options `min_iv = 0`, `min_cnt = 1`, `max_bin = 4`, `monotonicity = 0`. -/
def opts_four : opts ℚ :=
  { max_bin := 4, min_cnt := 1, min_iv := Dbl.fin 0, mono := 0 }

/-- The crosstab of `x = [1,2,3,4,5,6,7,8]`, `y = [0,0,0,1,1,1,1,1]`: eight rows of one
observation each, grand totals 3 zeros and 5 ones. -/
def xtab_sep (K : Type) [LinearOrderedField K] : xtab K :=
  { values := [Dbl.fin 1, Dbl.fin 2, Dbl.fin 3, Dbl.fin 4, Dbl.fin 5, Dbl.fin 6,
      Dbl.fin 7, Dbl.fin 8],
    zero_ct := [1, 1, 1, 0, 0, 0, 0, 0],
    ones_ct := [0, 0, 0, 1, 1, 1, 1, 1],
    size := 8 }

/-- The options of the perfect-separation scenario: `min_iv = 0`, `min_cnt = 1`,
`max_bin = 4`, `monotonicity = 0`. -/
def opts_sep (K : Type) [LinearOrderedField K] : opts K :=
  { max_bin := 4, min_cnt := 1, min_iv := Dbl.fin 0, mono := 0 }

/-- The crosstab of `x = [1,1,2,2]`, `y = [0,1,0,1]`: two rows with one observation of
each outcome. -/
def xtab_even (K : Type) [LinearOrderedField K] : xtab K :=
  { values := [Dbl.fin 1, Dbl.fin 2],
    zero_ct := [1, 1],
    ones_ct := [1, 1],
    size := 2 }

/-- Options with `min_iv = NaN` (`NA_real_` or `NaN` passed from R): `min_cnt = 1`,
`max_bin = 2`, `monotonicity = 0`. -/
def opts_nan (K : Type) [LinearOrderedField K] : opts K :=
  { max_bin := 2, min_cnt := 1, min_iv := Dbl.nan, mono := 0 }

/-- Options without a population floor: `min_iv = 0`, `min_cnt = 0`, `max_bin = 2`,
`monotonicity = 0`. -/
def opts_free (K : Type) [LinearOrderedField K] : opts K :=
  { max_bin := 2, min_cnt := 0, min_iv := Dbl.fin 0, mono := 0 }

/-- The crosstab of `x = [1,1]`, `y = [0,1]`: a single row with one observation of each
outcome. -/
def xtab_one (K : Type) [LinearOrderedField K] : xtab K :=
  { values := [Dbl.fin 1], zero_ct := [1], ones_ct := [1], size := 1 }

/-- Options that ask for a descending trend: `min_iv = 0`, `min_cnt = 1`,
`max_bin = 4`, `monotonicity = 1`. -/
def opts_mono : opts ℚ :=
  { max_bin := 4, min_cnt := 1, min_iv := Dbl.fin 0, mono := 1 }

/-- Options with a population floor of 10: `min_iv = 0`, `min_cnt = 10`, `max_bin = 4`,
`monotonicity = 0`. -/
def opts_ten : opts ℚ :=
  { max_bin := 4, min_cnt := 10, min_iv := Dbl.fin 0, mono := 0 }

/-- Options with a budget of three bins: `min_iv = 0`, `min_cnt = 1`, `max_bin = 3`,
`monotonicity = 0`. -/
def opts_three : opts ℚ :=
  { max_bin := 3, min_cnt := 1, min_iv := Dbl.fin 0, mono := 0 }

/-- The predictor of four observations `x = [1,1,1,2]`. -/
def sv_dx (K : Type) [LinearOrderedField K] : List (Dbl K) :=
  [Dbl.fin 1, Dbl.fin 1, Dbl.fin 1, Dbl.fin 2]

/-- The outcome of four observations `y = [0,0,1,1]`: the value `x = 1` has two
observations of outcome 0 and one of outcome 1; the totals are 2 and 2. -/
def sv_dy (K : Type) [LinearOrderedField K] : List (Dbl K) :=
  [Dbl.fin 0, Dbl.fin 0, Dbl.fin 1, Dbl.fin 1]

/-! ## The two sides of a cut -/

/-- The weight of evidence that `calc_iv` computes for one side with counts `c` in the
arithmetic that rounds nothing. -/
def side_woe (ln : K → K) (c tots : Dbl K × Dbl K) : Dbl K :=
  Dbl.log ln (Dbl.div (Dbl.div c.1 tots.1) (Dbl.div c.2 tots.2))

/-- The contribution of one side with counts `c` to the information value that
`calc_iv` computes (`asc_iv`, `dsc_iv`) in the arithmetic that rounds nothing. -/
def side_iv (ln : K → K) (c tots : Dbl K × Dbl K) : Dbl K :=
  Dbl.mul (side_woe ln c tots) (Dbl.sub (Dbl.div c.1 tots.1) (Dbl.div c.2 tots.2))

/-! ## Work items, final bins -/

/-- Two work items share no row. -/
def work.disjoint (u v : work) : Prop := u.stop < v.start ∨ v.stop < u.start

/-- The rows `a, ..., b` form a final bin of the marking `breaks`: a maximal run of
consecutive rows delimited by marked rows and the ends of the table.  A mark on row
`i` separates row `i` from row `i + 1`. -/
def is_bin (xt : xtab K) (breaks : List Nat) (a b : Nat) : Prop :=
  a ≤ b ∧ b < xt.size
  ∧ (a = 0 ∨ breaks.getD (a - 1) 0 = 1)
  ∧ (b = xt.size - 1 ∨ breaks.getD b 0 = 1)
  ∧ ∀ i, a ≤ i → i < b → breaks.getD i 0 ≠ 1

/-- The invariant of the driver loop on the work queue and the marks: every pending
work item is a non-empty range of rows of the table, the pending items are pairwise
disjoint, no row strictly inside a pending item (any row but its last) is marked, the
last row of the table is not marked, the number of marked rows is `num_bins - 1`, and
every final bin of the current marking other than the whole table has a population of
at least `min_cnt`. -/
structure queue_inv (xt : xtab K) (o : opts K) (st : bin_state) : Prop where
  bounds : ∀ w ∈ st.q, w.start ≤ w.stop ∧ w.stop ≤ xt.size - 1
  disj : st.q.Pairwise work.disjoint
  len : st.breaks.length = xt.size
  inside : ∀ w ∈ st.q, ∀ i, w.start ≤ i → i < w.stop → st.breaks.getD i 0 = 0
  below_last : ∀ i, st.breaks.getD i 0 = 1 → i + 1 < xt.size
  count : (marked_count xt st.breaks : Int) = st.num_bins - 1
  floor : ∀ a b, is_bin xt st.breaks a b →
    (a = 0 ∧ b = xt.size - 1) ∨ o.min_cnt ≤ (population xt a (b + 1) : Int)

/-- The loop `for (size_t i = start; i <= stop; i++)` of `find_best_split` as a
transition system, run from the index `i` for at most `fuel` iterations: `none` when
the fuel runs out before the test `i <= stop` fails. -/
def fbs_loop (A : arith K) (xt : xtab K) (tot grand_tot : Dbl K × Dbl K) (o : opts K)
    (stop : Nat) : Nat → Nat → fbs_state K → Option (fbs_state K)
  | 0, i, st => if i ≤ stop then none else some st
  | fuel + 1, i, st =>
    if i ≤ stop then
      fbs_loop A xt tot grand_tot o stop fuel (i + 1) (fbs_body A xt tot grand_tot o st i)
    else some st

/-! ## The counts of `calc_sv_woe` -/

/-- Number of observations `i < size` with `dx[i] == value` and `dy[i] == 0`. -/
def sv_zero_ct (dx dy : List (Dbl K)) (size : Nat) (value : Dbl K) : Nat :=
  ((List.range size).filter (fun i =>
    Dbl.eq (dx.getD i Dbl.nan) value && Dbl.eq (dy.getD i Dbl.nan) (Dbl.fin 0))).length

/-- Number of observations `i < size` with `dx[i] == value` and `dy[i] == 1`. -/
def sv_ones_ct (dx dy : List (Dbl K)) (size : Nat) (value : Dbl K) : Nat :=
  ((List.range size).filter (fun i =>
    Dbl.eq (dx.getD i Dbl.nan) value && Dbl.eq (dy.getD i Dbl.nan) (Dbl.fin 1))).length

/-! ## The trend of the final bins -/

/-- The weight of evidence of the rows `a, ..., b` taken as one bin: the value that
`calc_iv` computes for a side with the counts of these rows, against the grand
totals. -/
def bin_woe (A : arith K) (xt : xtab K) (a b : Nat) : Dbl K :=
  (calc_iv A (get_xtab_totals xt a (b + 1)) (get_xtab_totals xt a (b + 1))
    (grand_tots xt)).asc_woe

/-- The monotone trend of the final bins in the words of the specification: of any two
adjacent final bins of the marking `breaks`, the first has the greater weight of
evidence when `mono = 1`, and does not have the greater one when `mono = -1`. -/
def monotone_bins (A : arith K) (xt : xtab K) (breaks : List Nat) (mono : Int) : Prop :=
  ∀ a b c, is_bin xt breaks a b → is_bin xt breaks (b + 1) c →
    (mono = 1 → Dbl.gt (bin_woe A xt a b) (bin_woe A xt (b + 1) c) = true)
    ∧ (mono = -1 → Dbl.gt (bin_woe A xt a b) (bin_woe A xt (b + 1) c) = false)

/-- The invariant of the driver loop on the origin of the marks: every pending work
item starts at row 0 or right after a marked row and ends at the last row of the table
or at a marked row, and every marked row `i` is the index that `find_best_split`
returned for a range `[a, b]` of that kind with `a <= i < b`. -/
structure trend_inv (A : arith K) (xt : xtab K) (o : opts K) (st : bin_state) : Prop where
  qleft : ∀ w ∈ st.q, w.start = 0 ∨ st.breaks.getD (w.start - 1) 0 = 1
  qright : ∀ w ∈ st.q, w.stop = xt.size - 1 ∨ st.breaks.getD w.stop 0 = 1
  marks : ∀ i, st.breaks.getD i 0 = 1 → ∃ a b, a ≤ i ∧ i < b
    ∧ (a = 0 ∨ st.breaks.getD (a - 1) 0 = 1)
    ∧ (b = xt.size - 1 ∨ st.breaks.getD b 0 = 1)
    ∧ find_best_split A a b xt (grand_tots xt) o = some i

/-! ## The arithmetic of binary64 -/

/-- The rational number `2^e`. -/
def pow2 (e : Int) : ℚ :=
  if 0 ≤ e then ((2 ^ e.toNat : Nat) : ℚ) else 1 / ((2 ^ (-e).toNat : Nat) : ℚ)

/-- The number of binary digits of `n`, computed with `fuel >= n` halvings at hand. -/
def bitlen : Nat → Nat → Nat
  | 0, _ => 0
  | fuel + 1, n => if n = 0 then 0 else bitlen fuel (n / 2) + 1

/-- The binary exponent of a non-zero rational `q`: the integer `e` with
`2^e <= |q| < 2^(e+1)`. -/
def ilog2 (q : ℚ) : Int :=
  let e0 : Int := (bitlen q.num.natAbs q.num.natAbs : Int) - (bitlen q.den q.den : Int)
  if pow2 e0 ≤ |q| then e0 else e0 - 1

/-- The integer nearest to the rational `m >= 0`, the even one of the two in a tie. -/
def round_even (m : ℚ) : Int :=
  let n := Rat.floor m
  let f := m - n
  if f < 1 / 2 then n else if 1 / 2 < f then n + 1 else if n % 2 = 0 then n else n + 1

/-- Rounding to nearest, ties to even, to 53 significant binary digits: the double
nearest to `q`, for `q` in the range of the normal doubles (the exponent is not
bounded, overflow and underflow are not modelled). -/
def rnd53 (q : ℚ) : ℚ :=
  if q = 0 then 0 else
    let ulp := pow2 (ilog2 q - 52)
    (if q < 0 then -1 else 1) * (round_even (|q| / ulp) : ℚ) * ulp

/-- The natural logarithm of 2, truncated after 160 binary digits. -/
def ln2_q : ℚ := 1013035739299659071135698605846798551586536899366 / 2 ^ 160

/-- The first `k` terms of the series `artanh z = z + z^3/3 + z^5/5 + ...`. -/
def atanh_sum (z : ℚ) : Nat → ℚ
  | 0 => 0
  | k + 1 => atanh_sum z k + z ^ (2 * k + 1) / (2 * k + 1 : Nat)

/-- The natural logarithm of a rational `x > 0` to about 120 binary digits:
`x = 2^e * m` with `2/3 < m <= 4/3`, and `ln x = e * ln 2 + 2 * artanh ((m-1)/(m+1))`
with 26 terms of the series, whose argument is at most `1/5` in absolute value. -/
def log_q (x : ℚ) : ℚ :=
  let e := ilog2 x
  let m := x / pow2 e
  let m1 := if 4 / 3 < m then m / 2 else m
  let e1 := if 4 / 3 < m then e + 1 else e
  (e1 : ℚ) * ln2_q + 2 * atanh_sum ((m1 - 1) / (m1 + 1)) 26

/-- The arithmetic of IEEE-754 binary64 in the default rounding mode: every operation
returns the double nearest to its exact result (`rnd53`), and the library logarithm
returns the double nearest to the logarithm of its argument (`log_q`, rounded). -/
def ieee : arith ℚ :=
  { rnd := fun x => Dbl.fin (rnd53 x), ln := fun x => rnd53 (log_q x) }

/-- A crosstab of four predictor values 1, 2, 3, 4 with 3, 5, 1, 4 observations of
outcome 0 and 1, 5, 1, 4 observations of outcome 1: grand totals 13 and 11.  The last
three rows have the same share of each class. -/
def xtab_round : xtab ℚ :=
  { values := [Dbl.fin 1, Dbl.fin 2, Dbl.fin 3, Dbl.fin 4],
    zero_ct := [3, 5, 1, 4],
    ones_ct := [1, 5, 1, 4],
    size := 4 }

/-! ## Order facts about doubles -/

theorem dbl_lt_irrefl (a : Dbl K) : Dbl.lt a a = false := by
  cases a <;> simp [Dbl.lt]

theorem dbl_lt_trans {a b c : Dbl K} (h1 : Dbl.lt a b = true) (h2 : Dbl.lt b c = true) :
    Dbl.lt a c = true := by
  cases a <;> cases b <;> cases c <;> simp_all [Dbl.lt]
  exact lt_trans h1 h2

theorem dbl_lt_fin (a b : K) : Dbl.lt (Dbl.fin a) (Dbl.fin b) = decide (a < b) := rfl

theorem dbl_add_fin (a b : K) : Dbl.add (Dbl.fin a) (Dbl.fin b) = Dbl.fin (a + b) := rfl

theorem dbl_sub_fin (a b : K) : Dbl.sub (Dbl.fin a) (Dbl.fin b) = Dbl.fin (a - b) := by
  simp [Dbl.sub, Dbl.neg, Dbl.add, sub_eq_add_neg]

/-! ## Rounding -/

theorem dbl_round_nan (A : arith K) : Dbl.round A Dbl.nan = Dbl.nan := rfl

theorem dbl_round_zero (A : arith K) : Dbl.round A (Dbl.fin 0) = Dbl.fin 0 := by
  simp [Dbl.round]

/-- The arithmetic that rounds nothing returns the exact result of every operation. -/
theorem dbl_round_exact (ln : K → K) (x : Dbl K) : Dbl.round (exact_arith ln) x = x := by
  cases x with
  | fin a =>
    by_cases h : a = 0
    · simp [Dbl.round, h]
    · simp [Dbl.round, h, exact_arith]
  | nan => rfl
  | ninf => rfl
  | pinf => rfl

/-- In the arithmetic that rounds nothing, `calc_iv` returns the exact weights of
evidence of the two sides and the exact sum of their contributions. -/
theorem calc_iv_exact (ln : K → K) (a d t : Dbl K × Dbl K) :
    calc_iv (exact_arith ln) a d t
      = { asc_woe := side_woe ln a t, dsc_woe := side_woe ln d t,
          iv := Dbl.add (side_iv ln a t) (side_iv ln d t) } := by
  simp only [calc_iv, Dbl.rdiv, Dbl.rmul, Dbl.rsub, Dbl.radd, dbl_round_exact, side_iv,
    side_woe]
  rfl

/-! ## Sums of counts -/

theorem zero_sum_range (xt : xtab K) (a n : Nat) :
    zero_sum xt a (a + n) = ((List.range' a n).map (fun i => xt.zero_ct.getD i 0)).sum := by
  simp [zero_sum]

theorem ones_sum_range (xt : xtab K) (a n : Nat) :
    ones_sum xt a (a + n) = ((List.range' a n).map (fun i => xt.ones_ct.getD i 0)).sum := by
  simp [ones_sum]

theorem zero_sum_succ (xt : xtab K) (a n : Nat) :
    zero_sum xt a (a + n + 1) = zero_sum xt a (a + n) + xt.zero_ct.getD (a + n) 0 := by
  rw [Nat.add_assoc, zero_sum_range, zero_sum_range, List.range'_1_concat]
  simp

theorem ones_sum_succ (xt : xtab K) (a n : Nat) :
    ones_sum xt a (a + n + 1) = ones_sum xt a (a + n) + xt.ones_ct.getD (a + n) 0 := by
  rw [Nat.add_assoc, ones_sum_range, ones_sum_range, List.range'_1_concat]
  simp

theorem zero_sum_split (xt : xtab K) (a b c : Nat) (hab : a ≤ b) (hbc : b ≤ c) :
    zero_sum xt a c = zero_sum xt a b + zero_sum xt b c := by
  obtain ⟨m, rfl⟩ := Nat.exists_eq_add_of_le hab
  obtain ⟨n, rfl⟩ := Nat.exists_eq_add_of_le hbc
  have e : a + m + n = a + (m + n) := by omega
  rw [zero_sum_range xt (a + m) n, zero_sum_range xt a m, e, zero_sum_range xt a (m + n)]
  rw [← List.sum_append, ← List.map_append, List.range'_append_1, Nat.add_comm n m]

theorem ones_sum_split (xt : xtab K) (a b c : Nat) (hab : a ≤ b) (hbc : b ≤ c) :
    ones_sum xt a c = ones_sum xt a b + ones_sum xt b c := by
  obtain ⟨m, rfl⟩ := Nat.exists_eq_add_of_le hab
  obtain ⟨n, rfl⟩ := Nat.exists_eq_add_of_le hbc
  have e : a + m + n = a + (m + n) := by omega
  rw [ones_sum_range xt (a + m) n, ones_sum_range xt a m, e, ones_sum_range xt a (m + n)]
  rw [← List.sum_append, ← List.map_append, List.range'_append_1, Nat.add_comm n m]

/-- In iteration `i <= stop` the array `dsc_cnts` holds the counts of rows
`i + 1, ..., stop`. -/
theorem dsc_at_eq (xt : xtab K) (start stop i : Nat) (h1 : start ≤ i) (h2 : i ≤ stop) :
    dsc_at xt start stop i = get_xtab_totals xt (i + 1) (stop + 1) := by
  simp only [dsc_at, asc_at, get_xtab_totals, Dbl.ofNat, dbl_sub_fin]
  rw [zero_sum_split xt start (i + 1) (stop + 1) (by omega) (by omega),
    ones_sum_split xt start (i + 1) (stop + 1) (by omega) (by omega)]
  simp

/-! ## The validity test of one iteration -/

theorem pop_lt_iff (z n : Nat) (m : Int) :
    Dbl.lt (Dbl.add (Dbl.ofNat z : Dbl K) (Dbl.ofNat n)) (Dbl.ofInt m) = true
      ↔ ((z + n : Nat) : Int) < m := by
  simp only [Dbl.ofNat, Dbl.ofInt, dbl_add_fin, dbl_lt_fin, decide_eq_true_eq]
  have h : ((z : K) + (n : K)) = (((z + n : Nat) : Int) : K) := by push_cast; ring
  rw [h, Int.cast_lt]

/-- The local `valid` stays different from `-1` exactly when none of the tests of the
chain fires. -/
theorem fbs_valid_ne (asc_cnts dsc_cnts : Dbl K × Dbl K) (v : iv K) (o : opts K) :
    fbs_valid asc_cnts dsc_cnts v o ≠ -1 ↔
      (Dbl.lt (Dbl.add asc_cnts.1 asc_cnts.2) (Dbl.ofInt o.min_cnt) = false
      ∧ Dbl.lt (Dbl.add dsc_cnts.1 dsc_cnts.2) (Dbl.ofInt o.min_cnt) = false
      ∧ Dbl.lt v.iv o.min_iv = false
      ∧ Dbl.isinf v.iv = false
      ∧ (o.mono ≠ 0 → woe_sign v = o.mono)) := by
  unfold fbs_valid woe_sign
  split_ifs <;> simp_all
  omega

/-- The chain of tests of `find_best_split` rejects a cut exactly when one of the
five conditions of step 3f holds. -/
theorem cut_valid_iff (A : arith K) (xt : xtab K) (grand_tot : Dbl K × Dbl K) (o : opts K)
    (start stop i : Nat) (h1 : start ≤ i) (h2 : i ≤ stop) :
    cut_valid A xt grand_tot o start stop i = true
      ↔ spec_valid A xt grand_tot o start stop i := by
  have ha := pop_lt_iff (K := K) (zero_sum xt start (i + 1)) (ones_sum xt start (i + 1))
    o.min_cnt
  have hd := pop_lt_iff (K := K) (zero_sum xt (i + 1) (stop + 1))
    (ones_sum xt (i + 1) (stop + 1)) o.min_cnt
  have hdsc := dsc_at_eq xt start stop i h1 h2
  unfold cut_valid spec_valid population
  rw [decide_eq_true_eq, fbs_valid_ne, hdsc]
  simp only [asc_at, get_xtab_totals] at *
  rw [← ha, ← hd]
  simp only [Bool.not_eq_true, not_or, not_and, not_not]

/-! ## The loop of `find_best_split` -/

theorem find_best_split_eq (A : arith K) (xt : xtab K) (grand_tot : Dbl K × Dbl K)
    (o : opts K) (start stop : Nat) :
    find_best_split A start stop xt grand_tot o
      = (fbs_run A xt grand_tot o start stop (stop + 1 - start)).best_split_idx := rfl

theorem fbs_run_succ (A : arith K) (xt : xtab K) (grand_tot : Dbl K × Dbl K) (o : opts K)
    (start stop n : Nat) :
    fbs_run A xt grand_tot o start stop (n + 1)
      = fbs_body A xt (get_xtab_totals xt start (stop + 1)) grand_tot o
          (fbs_run A xt grand_tot o start stop n) (start + n) := by
  simp [fbs_run, List.range'_1_concat, List.foldl_append]

/-- The running sums `asc_cnts` after `n` iterations. -/
theorem fbs_run_asc (A : arith K) (xt : xtab K) (grand_tot : Dbl K × Dbl K) (o : opts K)
    (start stop n : Nat) :
    (fbs_run A xt grand_tot o start stop n).asc_cnts
      = get_xtab_totals xt start (start + n) := by
  induction n with
  | zero => simp [fbs_run, fbs_init, get_xtab_totals, zero_sum, ones_sum, Dbl.ofNat]
  | succ n ih =>
    rw [fbs_run_succ]
    have h : ∀ st : fbs_state K, ∀ i,
        (fbs_body A xt (get_xtab_totals xt start (stop + 1)) grand_tot o st i).asc_cnts
          = (Dbl.add st.asc_cnts.1 (Dbl.ofNat (xt.zero_ct.getD i 0)),
             Dbl.add st.asc_cnts.2 (Dbl.ofNat (xt.ones_ct.getD i 0))) := by
      intro st i
      unfold fbs_body
      simp only
      split_ifs <;> rfl
    rw [h, ih, ← Nat.add_assoc]
    simp only [get_xtab_totals, Dbl.ofNat, dbl_add_fin, zero_sum_succ, ones_sum_succ]
    push_cast
    rfl

/-- One iteration of the loop, in terms of the closed forms `cut_iv`, `cut_valid`. -/
theorem fbs_run_step (A : arith K) (xt : xtab K) (grand_tot : Dbl K × Dbl K) (o : opts K)
    (start stop n : Nat) :
    fbs_run A xt grand_tot o start stop (n + 1)
      = if cut_valid A xt grand_tot o start stop (start + n) = true
            ∧ Dbl.gt (cut_iv A xt grand_tot start stop (start + n)).iv
                (fbs_run A xt grand_tot o start stop n).best_iv = true then
          { asc_cnts := asc_at xt start (start + n),
            best_iv := (cut_iv A xt grand_tot start stop (start + n)).iv,
            best_split_idx := some (start + n) }
        else
          { asc_cnts := asc_at xt start (start + n),
            best_iv := (fbs_run A xt grand_tot o start stop n).best_iv,
            best_split_idx := (fbs_run A xt grand_tot o start stop n).best_split_idx } := by
  have hasc : (Dbl.add (fbs_run A xt grand_tot o start stop n).asc_cnts.1
        (Dbl.ofNat (xt.zero_ct.getD (start + n) 0)),
      Dbl.add (fbs_run A xt grand_tot o start stop n).asc_cnts.2
        (Dbl.ofNat (xt.ones_ct.getD (start + n) 0))) = asc_at xt start (start + n) := by
    rw [fbs_run_asc]
    simp only [asc_at, get_xtab_totals, Dbl.ofNat, dbl_add_fin, zero_sum_succ, ones_sum_succ]
    push_cast
    rfl
  have h1 := congrArg Prod.fst hasc
  have h2 := congrArg Prod.snd hasc
  simp only at h1 h2
  rw [fbs_run_succ]
  unfold fbs_body
  simp only [hasc, h1, h2]
  simp only [cut_valid, cut_iv, dsc_at, decide_eq_true_eq]

theorem dbl_gt_fin_cases {v : Dbl K} {x : K} (h : Dbl.gt v (Dbl.fin x) = true)
    (hinf : Dbl.isinf v = false) : ∃ y, v = Dbl.fin y ∧ x < y := by
  cases v <;> simp_all [Dbl.gt, Dbl.lt, Dbl.isinf]

theorem dbl_gt_false_mono {w : Dbl K} {x y : K} (h : Dbl.gt w (Dbl.fin x) = false)
    (hxy : x ≤ y) : Dbl.gt w (Dbl.fin y) = false := by
  cases w <;> simp_all [Dbl.gt, Dbl.lt]
  exact le_trans h hxy

theorem dbl_gt_false_lt {w : Dbl K} {x y : K} (h : Dbl.gt w (Dbl.fin x) = false)
    (hxy : x < y) : Dbl.isnan w = true ∨ Dbl.lt w (Dbl.fin y) = true := by
  cases w <;> simp_all [Dbl.gt, Dbl.lt, Dbl.isnan]
  exact lt_of_le_of_lt h hxy

theorem cut_valid_not_inf (A : arith K) (xt : xtab K) (grand_tot : Dbl K × Dbl K)
    (o : opts K) (start stop i : Nat)
    (h : cut_valid A xt grand_tot o start stop i = true) :
    Dbl.isinf (cut_iv A xt grand_tot start stop i).iv = false := by
  unfold cut_valid at h
  rw [decide_eq_true_eq, fbs_valid_ne] at h
  exact h.2.2.2.1

theorem fbs_run_inv (A : arith K) (xt : xtab K) (grand_tot : Dbl K × Dbl K) (o : opts K)
    (start stop n : Nat) :
    fbs_inv A xt grand_tot o start stop n (fbs_run A xt grand_tot o start stop n) := by
  induction n with
  | zero =>
    refine ⟨⟨-1, rfl, le_refl _⟩, ?_, fun _ => rfl, ?_⟩
    · intro j h1 h2; omega
    · intro s hs; simp [fbs_run, fbs_init] at hs
  | succ n ih =>
    obtain ⟨x, hx, hx1⟩ := ih.best_fin
    rw [fbs_run_step]
    split_ifs with hsel
    · obtain ⟨hv, hgt⟩ := hsel
      rw [hx] at hgt
      obtain ⟨y, hy, hxy⟩ := dbl_gt_fin_cases hgt (cut_valid_not_inf A xt grand_tot o _ _ _ hv)
      refine ⟨⟨y, hy, le_trans hx1 (le_of_lt hxy)⟩, ?_, ?_, ?_⟩
      · intro j h1 h2 hj
        simp only
        rw [hy]
        by_cases hjn : j = start + n
        · subst hjn; rw [hy]; simp [Dbl.gt, Dbl.lt]
        · have := ih.no_better j h1 (by omega) hj
          rw [hx] at this
          exact dbl_gt_false_mono this (le_of_lt hxy)
      · intro h; simp at h
      · intro s hs
        simp only [Option.some.injEq] at hs
        subst hs
        refine ⟨by omega, by omega, hv, rfl, ?_, ?_⟩
        · rw [hy]; simp only [Dbl.gt, Dbl.lt, decide_eq_true_eq]
          exact lt_of_le_of_lt hx1 hxy
        · intro j h1 h2 hj
          have := ih.no_better j h1 h2 hj
          rw [hx] at this
          rw [hy]
          exact dbl_gt_false_lt this hxy
    · refine ⟨⟨x, hx, hx1⟩, ?_, ?_, ?_⟩
      · intro j h1 h2 hj
        simp only
        by_cases hjn : j = start + n
        · subst hjn
          by_contra hc
          exact hsel ⟨hj, by simpa using hc⟩
        · exact ih.no_better j h1 (by omega) hj
      · exact ih.none_best
      · intro s hs
        obtain ⟨a, b, c, d, e, f⟩ := ih.some_best s hs
        exact ⟨a, by omega, c, d, e, f⟩

/-! ## The driver loop of `bin` -/

/-- The three ways one iteration of the driver loop can go. -/
theorem bin_step_cases (A : arith K) (xt : xtab K) (gt : Dbl K × Dbl K) (o : opts K)
    (st : bin_state) :
    (st.q = [] ∧ bin_step A xt gt o st = st)
    ∨ (∃ w rest, st.q = w :: rest
        ∧ (find_best_split A w.start w.stop xt gt o = none ∨ ¬ st.num_bins < o.max_bin)
        ∧ bin_step A xt gt o st
            = { q := rest, breaks := st.breaks, num_bins := st.num_bins })
    ∨ (∃ w rest split, st.q = w :: rest
        ∧ find_best_split A w.start w.stop xt gt o = some split
        ∧ st.num_bins < o.max_bin
        ∧ bin_step A xt gt o st
            = { q := enqueue (enqueue rest { start := w.start, stop := split })
                  { start := split + 1, stop := w.stop },
                breaks := st.breaks.set split 1,
                num_bins := st.num_bins + 1 }) := by
  unfold bin_step
  cases hq : st.q with
  | nil => left; simp
  | cons w rest =>
    right
    simp only
    cases hf : find_best_split A w.start w.stop xt gt o with
    | none => left; exact ⟨w, rest, rfl, Or.inl hf, by simp [hf]⟩
    | some split =>
      by_cases hb : st.num_bins < o.max_bin
      · right; exact ⟨w, rest, split, rfl, hf, hb, by simp [hf, hb]⟩
      · left; exact ⟨w, rest, rfl, Or.inr hb, by simp [hf, hb]⟩

/-- A property kept by every iteration holds after any number of iterations. -/
theorem bin_iter_induct (A : arith K) (xt : xtab K) (gt : Dbl K × Dbl K) (o : opts K)
    (P : bin_state → Prop) (hstep : ∀ st, P st → P (bin_step A xt gt o st))
    (n : Nat) (st : bin_state) (h0 : P st) : P (bin_iter A xt gt o n st) := by
  induction n generalizing st with
  | zero => exact h0
  | succ n ih => exact ih _ (hstep st h0)

theorem getD_set_ne (l : List Nat) (s i v : Nat) (h : i ≠ s) :
    (l.set s v).getD i 0 = l.getD i 0 := by
  simp [List.getD_eq_getElem?_getD, List.getElem?_set_ne (Ne.symm h)]

theorem filter_set_length (l : List Nat) (s : Nat) (is : List Nat) (hnd : is.Nodup) :
    (is.filter (fun i => (l.set s 1).getD i 0 = 1)).length
      ≤ (is.filter (fun i => l.getD i 0 = 1)).length + 1 := by
  have hsame : ∀ t : List Nat, s ∉ t →
      (t.filter (fun i => (l.set s 1).getD i 0 = 1)).length
        = (t.filter (fun i => l.getD i 0 = 1)).length := by
    intro t ht
    congr 1
    apply List.filter_congr
    intro i hi
    have : i ≠ s := fun e => ht (e ▸ hi)
    rw [getD_set_ne l s i 1 this]
  induction is with
  | nil => exact Nat.zero_le _
  | cons a t ih =>
    have hnd' := List.nodup_cons.1 hnd
    by_cases has : a = s
    · subst has
      have e := hsame t hnd'.1
      rw [List.filter_cons, List.filter_cons]
      split_ifs <;> first | omega | (simp only [List.length_cons]; omega)
    · have e := ih hnd'.2
      rw [List.filter_cons, List.filter_cons, getD_set_ne l s a 1 has]
      split_ifs <;> first | omega | (simp only [List.length_cons]; omega)

/-- Marking one more row raises the number of marked rows by at most one. -/
theorem marked_count_set (xt : xtab K) (breaks : List Nat) (s : Nat) :
    marked_count xt (breaks.set s 1) ≤ marked_count xt breaks + 1 :=
  filter_set_length breaks s (List.range xt.size) (List.nodup_range _)

theorem marked_count_init (xt : xtab K) : marked_count xt (List.replicate xt.size 0) = 0 := by
  simp only [marked_count, marked_rows, List.length_eq_zero, List.filter_eq_nil_iff]
  intro i _
  simp [List.getD_eq_getElem?_getD, List.getElem?_replicate]
  split_ifs <;> simp

theorem bin_inv_init (xt : xtab K) : bin_inv xt (bin_init xt) := by
  refine ⟨le_refl _, ?_, by simp [bin_init]⟩
  simp [bin_init, marked_count_init]

theorem bin_inv_step (A : arith K) (xt : xtab K) (gt : Dbl K × Dbl K) (o : opts K)
    (st : bin_state) (h : bin_inv xt st) : bin_inv xt (bin_step A xt gt o st) := by
  obtain ⟨h1, h2, h3⟩ := h
  rcases bin_step_cases A xt gt o st with ⟨_, e⟩ | ⟨w, rest, _, _, e⟩ | ⟨w, rest, s, _, _, _, e⟩
  · rw [e]; exact ⟨h1, h2, h3⟩
  · rw [e]; exact ⟨h1, h2, h3⟩
  · rw [e]
    refine ⟨by simp only; omega, ?_, by simp [h3]⟩
    have := marked_count_set xt st.breaks s
    simp only
    omega

theorem bin_inv_iter (A : arith K) (xt : xtab K) (gt : Dbl K × Dbl K) (o : opts K)
    (n : Nat) : bin_inv xt (bin_iter A xt gt o n (bin_init xt)) :=
  bin_iter_induct A xt gt o (bin_inv xt) (bin_inv_step A xt gt o) n _ (bin_inv_init xt)

/-- The bin counter never exceeds `max_bin` (when `max_bin >= 1`). -/
theorem bin_le_max_iter (A : arith K) (xt : xtab K) (gt : Dbl K × Dbl K) (o : opts K)
    (h : 1 ≤ o.max_bin) (n : Nat) :
    (bin_iter A xt gt o n (bin_init xt)).num_bins ≤ o.max_bin := by
  refine bin_iter_induct A xt gt o (fun st => st.num_bins ≤ o.max_bin) ?_ n _ h
  intro st hst
  rcases bin_step_cases A xt gt o st with ⟨_, e⟩ | ⟨w, rest, _, _, e⟩ | ⟨w, rest, s, _, _, hb, e⟩
  · rw [e]; exact hst
  · rw [e]; exact hst
  · rw [e]; simp only; omega

/-- With `max_bin = 1` the driver loop never touches `breaks` or the counter. -/
theorem bin_max_one_iter (A : arith K) (xt : xtab K) (gt : Dbl K × Dbl K) (o : opts K)
    (h : o.max_bin = 1) (n : Nat) :
    (bin_iter A xt gt o n (bin_init xt)).breaks = List.replicate xt.size 0
      ∧ (bin_iter A xt gt o n (bin_init xt)).num_bins = 1 := by
  refine bin_iter_induct A xt gt o
    (fun st => st.breaks = List.replicate xt.size 0 ∧ st.num_bins = 1) ?_ n _ ⟨rfl, rfl⟩
  intro st hst
  rcases bin_step_cases A xt gt o st with ⟨_, e⟩ | ⟨w, rest, _, _, e⟩ | ⟨w, rest, s, _, _, hb, e⟩
  · rw [e]; exact hst
  · rw [e]; exact hst
  · exfalso; omega

/-! ### Termination of the driver loop -/

theorem bin_measure_step (A : arith K) (xt : xtab K) (gt : Dbl K × Dbl K) (o : opts K)
    (st : bin_state) (hq : st.q ≠ []) :
    bin_measure o (bin_step A xt gt o st) + 1 = bin_measure o st := by
  rcases bin_step_cases A xt gt o st with ⟨e, _⟩ | ⟨w, rest, e0, _, e⟩ | ⟨w, rest, s, e0, _, hb, e⟩
  · exact absurd e hq
  · rw [e]; simp [bin_measure, e0]; omega
  · rw [e]; simp [bin_measure, e0, enqueue]; omega

theorem bin_iter_empty (A : arith K) (xt : xtab K) (gt : Dbl K × Dbl K) (o : opts K)
    (n : Nat) (st : bin_state) (hq : st.q = []) : bin_iter A xt gt o n st = st := by
  induction n with
  | zero => rfl
  | succ n ih =>
    have : bin_step A xt gt o st = st := by unfold bin_step; simp [hq]
    rw [bin_iter, this, ih]

theorem bin_iter_terminates (A : arith K) (xt : xtab K) (gt : Dbl K × Dbl K) (o : opts K)
    (n : Nat) (st : bin_state) (h : bin_measure o st ≤ n) :
    (bin_iter A xt gt o n st).q = [] := by
  induction n generalizing st with
  | zero =>
    have : st.q.length = 0 := by unfold bin_measure at h; omega
    simpa using this
  | succ n ih =>
    by_cases hq : st.q = []
    · rw [bin_iter_empty A xt gt o _ st hq]; exact hq
    · rw [bin_iter]
      apply ih
      have := bin_measure_step A xt gt o st hq
      omega

/-- The driver loop of `bin` terminates: after `bin_fuel` iterations the queue is
empty. -/
theorem bin_final_q (A : arith K) (xt : xtab K) (o : opts K) :
    (bin_final A xt o).q = [] := by
  apply bin_iter_terminates
  simp [bin_measure, bin_init, bin_fuel, enqueue]
  omega

/-! ## The assembly loop of `bin` -/

theorem put_length (r : List (Option (Dbl K))) (j : Nat) (vs : List (Dbl K)) :
    (put r j vs).length = r.length := by
  induction vs generalizing r j with
  | nil => rfl
  | cons v vs ih => rw [put, ih, List.length_set]

theorem put_low (r : List (Option (Dbl K))) (j : Nat) (vs : List (Dbl K)) (k : Nat)
    (hk : k ≤ j) : (put r j vs)[k]? = r[k]? := by
  induction vs generalizing r j with
  | nil => rfl
  | cons v vs ih =>
    rw [put, ih _ _ (by omega), List.getElem?_set_ne (by omega)]

theorem put_high (r : List (Option (Dbl K))) (j : Nat) (vs : List (Dbl K)) (k : Nat)
    (hk : j + vs.length < k) : (put r j vs)[k]? = r[k]? := by
  induction vs generalizing r j with
  | nil => rfl
  | cons v vs ih =>
    simp only [List.length_cons] at hk
    rw [put, ih _ _ (by omega), List.getElem?_set_ne (by omega)]

theorem put_mid (r : List (Option (Dbl K))) (j : Nat) (vs : List (Dbl K)) (t : Nat)
    (v : Dbl K) (hv : vs[t]? = some v) (hlen : j + 1 + t < r.length) :
    (put r j vs)[j + 1 + t]? = some (some v) := by
  induction vs generalizing r j t with
  | nil => simp at hv
  | cons a vs ih =>
    rw [put]
    cases t with
    | zero =>
      simp only [List.getElem?_cons_zero, Option.some.injEq] at hv
      subst hv
      rw [put_low _ _ _ _ (by omega), Nat.add_zero, List.getElem?_set_self (by omega)]
    | succ t =>
      simp only [List.getElem?_cons_succ] at hv
      have := ih (r.set (j + 1) (some a)) (j + 1) t hv (by rw [List.length_set]; omega)
      rw [show j + 1 + (t + 1) = j + 1 + 1 + t by omega]
      exact this

/-- The assembly loop over the rows `is` stores the values of the marked rows among
them in consecutive slots. -/
theorem assemble_fold (xt : xtab K) (breaks : List Nat) (is : List Nat) (j : Nat)
    (r : List (Option (Dbl K))) :
    is.foldl (assemble_body xt breaks) (j, r)
      = (j + (is.filter (fun i => breaks.getD i 0 = 1)).length,
         put r j ((is.filter (fun i => breaks.getD i 0 = 1)).map
           (fun i => xt.values.getD i Dbl.nan))) := by
  induction is generalizing j r with
  | nil => rfl
  | cons a t ih =>
    rw [List.foldl_cons, List.filter_cons]
    by_cases h : breaks.getD a 0 = 1
    · have hb : assemble_body xt breaks (j, r) a
          = (j + 1, r.set (j + 1) (some (xt.values.getD a Dbl.nan))) := by
        simp only [assemble_body, h, if_true]
      rw [hb, ih]
      simp only [h, if_true, decide_True, List.length_cons, List.map_cons, put]
      congr 1
      omega
    · have hb : assemble_body xt breaks (j, r) a = (j, r) := by
        simp only [assemble_body, h, if_false]
      rw [hb, ih]
      simp only [h, decide_False, Bool.false_eq_true, if_false]

/-- The array returned by `bin`, in closed form. -/
theorem assemble_eq (xt : xtab K) (breaks : List Nat) (num_bins : Int) :
    assemble xt breaks num_bins
      = put ((List.replicate (num_bins + 1).toNat none).set 0 (some Dbl.ninf)) 0
          (marked_values xt breaks) := by
  unfold assemble
  simp only [assemble_fold]
  rfl

/-! ## The values stored by the assembly loop -/

theorem marked_values_length (xt : xtab K) (breaks : List Nat) :
    (marked_values xt breaks).length = marked_count xt breaks := by
  simp [marked_values, marked_count]

/-- Every value stored by the assembly loop is the value of a crosstab row. -/
theorem marked_values_mem (xt : xtab K) (breaks : List Nat)
    (hwf : xt.values.length = xt.size) (v : Dbl K) (hv : v ∈ marked_values xt breaks) :
    v ∈ xt.values := by
  simp only [marked_values, marked_rows, List.mem_map, List.mem_filter, List.mem_range] at hv
  obtain ⟨i, ⟨hi, _⟩, rfl⟩ := hv
  rw [List.getD_eq_getElem _ _ (by omega)]
  exact List.getElem_mem _

/-- The values of the marked rows ascend strictly when the row values do. -/
theorem marked_values_pairwise (xt : xtab K) (breaks : List Nat)
    (hwf : xt.values.length = xt.size)
    (hasc : xt.values.Chain' (fun a b => Dbl.lt a b = true)) :
    (marked_values xt breaks).Pairwise (fun a b => Dbl.lt a b = true) := by
  haveI : IsTrans (Dbl K) (fun a b => Dbl.lt a b = true) := ⟨fun _ _ _ => dbl_lt_trans⟩
  have hp := List.chain'_iff_pairwise.1 hasc
  rw [List.pairwise_iff_getElem] at hp
  unfold marked_values marked_rows
  rw [List.pairwise_map]
  have hr : (List.range xt.size).Pairwise (fun i j => i < j ∧ j < xt.size) := by
    have h1 := List.pairwise_lt_range xt.size
    refine (List.Pairwise.and_mem.1 h1).imp ?_
    intro a b h
    exact ⟨h.2.2, List.mem_range.1 h.2.1⟩
  refine (hr.filter _).imp ?_
  intro i j hij
  rw [List.getD_eq_getElem _ _ (by omega), List.getD_eq_getElem _ _ (by omega)]
  exact hp i j (by omega) (by omega) hij.1

/-- Slot 0 of the array returned by `bin` holds negative infinity. -/
theorem bin_slot_zero (A : arith K) (xt : xtab K) (o : opts K) :
    (bin A xt o)[0]? = some (some Dbl.ninf) := by
  obtain ⟨h1, _, _⟩ := bin_inv_iter A xt (grand_tots xt) o (bin_fuel o)
  change 1 ≤ (bin_final A xt o).num_bins at h1
  simp only [bin, assemble_eq]
  rw [put_low _ _ _ _ (le_refl _), List.getElem?_set_self]
  simp only [List.length_replicate]
  omega

/-! ## What `find_best_split` returns -/

theorem dbl_not_gt_le {w : Dbl K} {y : K} (h : Dbl.gt w (Dbl.fin y) = false)
    (hn : Dbl.isnan w = false) : Dbl.le w (Dbl.fin y) = true := by
  cases w <;> simp_all [Dbl.gt, Dbl.lt, Dbl.le, Dbl.isnan]

theorem dbl_not_lt_le {a b : Dbl K} (h : Dbl.lt a b = false) (ha : Dbl.isnan a = false)
    (hb : Dbl.isnan b = false) : Dbl.le b a = true := by
  cases a <;> cases b <;> simp_all [Dbl.lt, Dbl.le, Dbl.isnan]

/-- The index returned by `find_best_split` lies in `[start, stop]`, passed the
validity test, has a finite information value above the initial `best_iv = -1`, is not
beaten by any cut that passed the test, and every earlier cut that passed the test has
a NaN or strictly smaller information value. -/
theorem fbs_some (A : arith K) (xt : xtab K) (grand_tot : Dbl K × Dbl K) (o : opts K)
    (start stop s : Nat) (h : find_best_split A start stop xt grand_tot o = some s) :
    start ≤ s ∧ s ≤ stop ∧ cut_valid A xt grand_tot o start stop s = true
    ∧ (∃ x : K, (cut_iv A xt grand_tot start stop s).iv = Dbl.fin x ∧ -1 < x)
    ∧ (∀ j, start ≤ j → j ≤ stop → cut_valid A xt grand_tot o start stop j = true →
        Dbl.gt (cut_iv A xt grand_tot start stop j).iv
          (cut_iv A xt grand_tot start stop s).iv = false)
    ∧ (∀ j, start ≤ j → j < s → cut_valid A xt grand_tot o start stop j = true →
        Dbl.isnan (cut_iv A xt grand_tot start stop j).iv = true
        ∨ Dbl.lt (cut_iv A xt grand_tot start stop j).iv
            (cut_iv A xt grand_tot start stop s).iv = true) := by
  rw [find_best_split_eq] at h
  have inv := fbs_run_inv A xt grand_tot o start stop (stop + 1 - start)
  obtain ⟨h1, h2, hv, hbest, hgt, hlow⟩ := inv.some_best s h
  have hs : s ≤ stop := by omega
  obtain ⟨x, hx⟩ := dbl_gt_fin_cases hgt (cut_valid_not_inf A xt grand_tot o _ _ _ hv)
  refine ⟨h1, hs, hv, ⟨x, hx⟩, ?_, hlow⟩
  intro j hj1 hj2 hjv
  have := inv.no_better j hj1 (by omega) hjv
  rw [hbest] at this
  exact this

/-- The function `find_best_split` returns the sentinel exactly when no cut both
passes the validity test and has an information value above the initial
`best_iv = -1`. -/
theorem fbs_none_iff (A : arith K) (xt : xtab K) (grand_tot : Dbl K × Dbl K) (o : opts K)
    (start stop : Nat) :
    find_best_split A start stop xt grand_tot o = none ↔
      ∀ i, start ≤ i → i ≤ stop →
        ¬ (cut_valid A xt grand_tot o start stop i = true
          ∧ Dbl.gt (cut_iv A xt grand_tot start stop i).iv (Dbl.fin (-1)) = true) := by
  constructor
  · intro h i h1 h2 hc
    rw [find_best_split_eq] at h
    have inv := fbs_run_inv A xt grand_tot o start stop (stop + 1 - start)
    have := inv.no_better i h1 (by omega) hc.1
    rw [inv.none_best h, hc.2] at this
    exact Bool.noConfusion this
  · intro h
    cases hf : find_best_split A start stop xt grand_tot o with
    | none => rfl
    | some s =>
      obtain ⟨h1, h2, hv, ⟨x, hx, hx1⟩, _, _⟩ := fbs_some A xt grand_tot o start stop s hf
      exfalso
      apply h s h1 h2
      refine ⟨hv, ?_⟩
      rw [hx]
      simpa [Dbl.gt, Dbl.lt] using hx1

/-- The only row that one iteration of the driver loop can mark is the index that
`find_best_split` returned for the work item at the head of the queue. -/
theorem bin_step_marks (A : arith K) (xt : xtab K) (gt : Dbl K × Dbl K) (o : opts K)
    (st : bin_state) (w : work) (rest : List work) (hq : st.q = w :: rest) :
    (bin_step A xt gt o st).breaks = st.breaks
    ∨ ∃ s, find_best_split A w.start w.stop xt gt o = some s
        ∧ (bin_step A xt gt o st).breaks = st.breaks.set s 1 := by
  rcases bin_step_cases A xt gt o st with
    ⟨_, e⟩ | ⟨w', rest', _, _, e⟩ | ⟨w', rest', s, e0, hf, _, e⟩
  · left; rw [e]
  · left; rw [e]
  · right
    rw [hq] at e0
    obtain ⟨rfl, rfl⟩ := List.cons.inj e0
    exact ⟨s, hf, by rw [e]⟩

/-! ## The perfect-separation scenario -/

/-- On the crosstab of `x = [1..8]`, `y = [0,0,0,1,1,1,1,1]` no cut of the whole range
is retained, whatever the logarithm. -/
theorem sep_no_split (ln : K → K) :
    find_best_split (exact_arith ln) 0 7 (xtab_sep K) (grand_tots (xtab_sep K))
      (opts_sep K) = none := by
  norm_num [find_best_split, xtab_sep, grand_tots, opts_sep, get_xtab_totals, zero_sum, ones_sum,
    List.range', fbs_body, fbs_init, fbs_valid, calc_iv_exact, side_woe, side_iv, Dbl.add,
    Dbl.sub, Dbl.neg, Dbl.mul, Dbl.div, Dbl.log, Dbl.lt, Dbl.gt, Dbl.isinf, Dbl.ofNat, Dbl.ofInt]

/-- The driver loop of `bin` on the perfect-separation scenario: the only work item is
discarded, no row is marked. -/
theorem sep_final (ln : K → K) :
    bin_final (exact_arith ln) (xtab_sep K) (opts_sep K)
      = { q := [], breaks := List.replicate 8 0, num_bins := 1 } := by
  have h := sep_no_split ln
  have hfuel : bin_fuel (opts_sep K) = 6 + 1 := by simp [bin_fuel, opts_sep]
  have hstep : bin_step (exact_arith ln) (xtab_sep K) (grand_tots (xtab_sep K)) (opts_sep K)
      (bin_init (xtab_sep K)) = { q := [], breaks := List.replicate 8 0, num_bins := 1 } := by
    have hq : (bin_init (xtab_sep K)).q = [{ start := 0, stop := 7 }] := rfl
    unfold bin_step
    rw [hq]
    simp only [h]
    rfl
  rw [bin_final, hfuel, bin_iter, hstep, bin_iter_empty _ _ _ _ _ _ rfl]

/-- The array returned by `bin` on the perfect-separation scenario: the sentinel and
one slot that is never written. -/
theorem sep_bin (ln : K → K) :
    bin (exact_arith ln) (xtab_sep K) (opts_sep K) = [some Dbl.ninf, none] := by
  rw [bin, sep_final]
  rfl

/-- On the perfect-separation scenario every cut leaves a side without observations
of one class, and its information value is an infinity or NaN. -/
theorem sep_cut_not_finite (ln : K → K) (i : Nat) (hi : i ≤ 7) :
    Dbl.isfinite (cut_iv (exact_arith ln) (xtab_sep K) (grand_tots (xtab_sep K))
      0 7 i).iv = false := by
  interval_cases i <;>
    norm_num [cut_iv, asc_at, dsc_at, xtab_sep, grand_tots, get_xtab_totals, zero_sum, ones_sum,
      List.range', calc_iv_exact, side_woe, side_iv, Dbl.add, Dbl.sub, Dbl.neg, Dbl.mul, Dbl.div,
      Dbl.log, Dbl.ofNat, Dbl.isfinite]

/-! ## The cut after the last row of a range -/

theorem dbl_zero_div (t : Dbl K) :
    Dbl.div (Dbl.fin 0) t = Dbl.nan ∨ Dbl.div (Dbl.fin 0) t = Dbl.fin 0 := by
  cases t with
  | nan => left; rfl
  | ninf => right; rfl
  | pinf => right; rfl
  | fin b =>
    by_cases hb : b = 0
    · left; simp [Dbl.div, hb]
    · right; simp [Dbl.div, hb]

/-- A side without any observation has a NaN weight of evidence: `0/t0` and `0/t1`
are zero or NaN, and their quotient is NaN. -/
theorem empty_side_ratio (t0 t1 : Dbl K) :
    Dbl.div (Dbl.div (Dbl.fin 0) t0) (Dbl.div (Dbl.fin 0) t1) = Dbl.nan := by
  rcases dbl_zero_div t0 with h0 | h0 <;> rcases dbl_zero_div t1 with h1 | h1 <;>
    rw [h0, h1] <;> simp [Dbl.div]

theorem dbl_mul_nan (x : Dbl K) : Dbl.mul Dbl.nan x = Dbl.nan := by
  cases x <;> rfl

theorem dbl_add_nan (x : Dbl K) : Dbl.add x Dbl.nan = Dbl.nan := by
  cases x <;> rfl

theorem dbl_nan_add (x : Dbl K) : Dbl.add Dbl.nan x = Dbl.nan := by
  cases x <;> rfl

/-- In the last iteration `i = stop` the array `dsc_cnts` is `(0, 0)`. -/
theorem dsc_at_stop (xt : xtab K) (start stop : Nat) :
    dsc_at xt start stop stop = (Dbl.fin 0, Dbl.fin 0) := by
  simp [dsc_at, asc_at, get_xtab_totals, Dbl.ofNat, dbl_sub_fin]

theorem dbl_rzero_div (A : arith K) (t : Dbl K) :
    Dbl.rdiv A (Dbl.fin 0) t = Dbl.nan ∨ Dbl.rdiv A (Dbl.fin 0) t = Dbl.fin 0 := by
  unfold Dbl.rdiv
  rcases dbl_zero_div t with h | h
  · left; rw [h]; rfl
  · right; rw [h]; exact dbl_round_zero A

/-- In every arithmetic a side without any observation has a NaN weight of evidence:
`0/t0` and `0/t1` are zero or NaN, and their quotient is NaN. -/
theorem empty_side_rratio (A : arith K) (t0 t1 : Dbl K) :
    Dbl.rdiv A (Dbl.rdiv A (Dbl.fin 0) t0) (Dbl.rdiv A (Dbl.fin 0) t1) = Dbl.nan := by
  rcases dbl_rzero_div A t0 with h0 | h0 <;> rcases dbl_rzero_div A t1 with h1 | h1 <;>
    rw [h0, h1] <;> simp [Dbl.rdiv, Dbl.div, Dbl.round]

theorem dbl_rmul_nan (A : arith K) (x : Dbl K) : Dbl.rmul A Dbl.nan x = Dbl.nan := by
  unfold Dbl.rmul
  rw [dbl_mul_nan]
  rfl

theorem dbl_radd_nan (A : arith K) (x : Dbl K) : Dbl.radd A x Dbl.nan = Dbl.nan := by
  unfold Dbl.radd
  rw [dbl_add_nan]
  rfl

/-- The information value of the cut after the last row of the range is NaN, in every
arithmetic. -/
theorem cut_iv_stop (A : arith K) (xt : xtab K) (grand_tot : Dbl K × Dbl K)
    (start stop : Nat) :
    (cut_iv A xt grand_tot start stop stop).iv = Dbl.nan := by
  unfold cut_iv calc_iv
  simp only [dsc_at_stop, empty_side_rratio, Dbl.log, dbl_rmul_nan, dbl_radd_nan]

/-- The index returned by `find_best_split` is never the last row of the range. -/
theorem fbs_lt_stop (A : arith K) (xt : xtab K) (grand_tot : Dbl K × Dbl K) (o : opts K)
    (start stop s : Nat) (h : find_best_split A start stop xt grand_tot o = some s) :
    start ≤ s ∧ s < stop := by
  obtain ⟨h1, h2, _, ⟨x, hx, _⟩, _, _⟩ := fbs_some A xt grand_tot o start stop s h
  refine ⟨h1, lt_of_le_of_ne h2 ?_⟩
  intro e
  subst e
  rw [cut_iv_stop] at hx
  exact Dbl.noConfusion hx

/-- On a range of a single row `find_best_split` returns the sentinel. -/
theorem fbs_single (A : arith K) (xt : xtab K) (grand_tot : Dbl K × Dbl K) (o : opts K)
    (a : Nat) : find_best_split A a a xt grand_tot o = none := by
  cases h : find_best_split A a a xt grand_tot o with
  | none => rfl
  | some s =>
    have := fbs_lt_stop A xt grand_tot o a a s h
    omega

/-! ## Sides with and without observations of both classes -/

/-- In the arithmetic that rounds nothing, `calc_iv` returns the exact weights of
evidence of the two sides and the exact sum of their contributions. -/
theorem calc_iv_sides (ln : K → K) (a d t : Dbl K × Dbl K) :
    (calc_iv (exact_arith ln) a d t).iv = Dbl.add (side_iv ln a t) (side_iv ln d t)
    ∧ (calc_iv (exact_arith ln) a d t).asc_woe = side_woe ln a t
    ∧ (calc_iv (exact_arith ln) a d t).dsc_woe = side_woe ln d t := by
  rw [calc_iv_exact]
  exact ⟨rfl, rfl, rfl⟩

/-- A side with observations of both classes, against positive totals, has a finite
weight of evidence and a finite contribution to the information value. -/
theorem side_pos (ln : K → K) (a0 a1 t0 t1 : K) (h0 : 0 < a0) (h1 : 0 < a1)
    (ht0 : 0 < t0) (ht1 : 0 < t1) :
    side_woe ln (Dbl.fin a0, Dbl.fin a1) (Dbl.fin t0, Dbl.fin t1)
      = Dbl.fin (ln ((a0 / t0) / (a1 / t1)))
    ∧ side_iv ln (Dbl.fin a0, Dbl.fin a1) (Dbl.fin t0, Dbl.fin t1)
      = Dbl.fin (ln ((a0 / t0) / (a1 / t1)) * (a0 / t0 - a1 / t1)) := by
  have hp : 0 < a0 / t0 := div_pos h0 ht0
  have hq : 0 < a1 / t1 := div_pos h1 ht1
  have hr : 0 < (a0 / t0) / (a1 / t1) := div_pos hp hq
  have hw : side_woe ln (Dbl.fin a0, Dbl.fin a1) (Dbl.fin t0, Dbl.fin t1)
      = Dbl.fin (ln ((a0 / t0) / (a1 / t1))) := by
    simp only [side_woe, Dbl.div, ne_of_gt ht0, ne_of_gt ht1, ne_of_gt hq, if_false, Dbl.log,
      not_lt_of_gt hr, ne_of_gt hr]
  refine ⟨hw, ?_⟩
  rw [side_iv, hw]
  simp only [Dbl.div, ne_of_gt ht0, ne_of_gt ht1, if_false, dbl_sub_fin, Dbl.mul]

/-- A side without observations of one class, against positive totals, contributes
plus infinity or NaN to the information value. -/
theorem side_pure (ln : K → K) (a0 a1 : Nat) (t0 t1 : K) (h : a0 = 0 ∨ a1 = 0)
    (ht0 : 0 < t0) (ht1 : 0 < t1) :
    side_iv ln (Dbl.ofNat a0, Dbl.ofNat a1) (Dbl.fin t0, Dbl.fin t1) = Dbl.pinf
    ∨ side_iv ln (Dbl.ofNat a0, Dbl.ofNat a1) (Dbl.fin t0, Dbl.fin t1) = Dbl.nan := by
  have e0 : ∀ n : Nat, n ≠ 0 → (0 : K) < (n : K) / t0 := fun n hn =>
    div_pos (Nat.cast_pos.2 (Nat.pos_of_ne_zero hn)) ht0
  have e1 : ∀ n : Nat, n ≠ 0 → (0 : K) < (n : K) / t1 := fun n hn =>
    div_pos (Nat.cast_pos.2 (Nat.pos_of_ne_zero hn)) ht1
  by_cases z0 : a0 = 0 <;> by_cases z1 : a1 = 0
  · right
    subst z0 z1
    simp [side_iv, side_woe, Dbl.ofNat, Dbl.div, ne_of_gt ht0, ne_of_gt ht1, Dbl.log, Dbl.mul]
  · left
    subst z0
    have := e1 a1 z1
    simp [side_iv, side_woe, Dbl.ofNat, Dbl.div, ne_of_gt ht0, ne_of_gt ht1, ne_of_gt this,
      Dbl.log, Dbl.mul, Dbl.sub, Dbl.neg, Dbl.add, this, le_of_lt this]
  · left
    subst z1
    have := e0 a0 z0
    simp [side_iv, side_woe, Dbl.ofNat, Dbl.div, ne_of_gt ht0, ne_of_gt ht1, ne_of_gt this,
      Dbl.log, Dbl.mul, Dbl.sub, Dbl.neg, Dbl.add, this, le_of_lt this]
  · exact absurd h (by simp [z0, z1])

theorem dbl_add_finite {x y : Dbl K} (h : Dbl.isfinite (Dbl.add x y) = true) :
    Dbl.isfinite x = true ∧ Dbl.isfinite y = true := by
  cases x <;> cases y <;> simp_all [Dbl.add, Dbl.isfinite]

/-- With positive grand totals, a cut that leaves a side without observations of some
class has an information value that is not finite. -/
theorem cut_pure_not_finite (ln : K → K) (xt : xtab K) (t0 t1 : K) (ht0 : 0 < t0)
    (ht1 : 0 < t1) (start stop i : Nat) (h1 : start ≤ i) (h2 : i ≤ stop)
    (h : zero_sum xt start (i + 1) = 0 ∨ ones_sum xt start (i + 1) = 0
      ∨ zero_sum xt (i + 1) (stop + 1) = 0 ∨ ones_sum xt (i + 1) (stop + 1) = 0) :
    Dbl.isfinite (cut_iv (exact_arith ln) xt (Dbl.fin t0, Dbl.fin t1) start stop i).iv = false := by
  by_contra hc
  rw [Bool.not_eq_false] at hc
  unfold cut_iv at hc
  rw [(calc_iv_sides ln _ _ _).1, dsc_at_eq xt start stop i h1 h2] at hc
  obtain ⟨ha, hd⟩ := dbl_add_finite hc
  simp only [asc_at, get_xtab_totals] at ha hd
  rcases h with h | h | h | h
  · rcases side_pure ln _ (ones_sum xt start (i + 1)) t0 t1 (Or.inl h) ht0 ht1 with e | e <;>
      rw [e] at ha <;> exact Bool.noConfusion ha
  · rcases side_pure ln (zero_sum xt start (i + 1)) _ t0 t1 (Or.inr h) ht0 ht1 with e | e <;>
      rw [e] at ha <;> exact Bool.noConfusion ha
  · rcases side_pure ln _ (ones_sum xt (i + 1) (stop + 1)) t0 t1 (Or.inl h) ht0 ht1
      with e | e <;> rw [e] at hd <;> exact Bool.noConfusion hd
  · rcases side_pure ln (zero_sum xt (i + 1) (stop + 1)) _ t0 t1 (Or.inr h) ht0 ht1
      with e | e <;> rw [e] at hd <;> exact Bool.noConfusion hd

/-! ## Runs of `bin` without any split -/

theorem bin_fuel_succ (o : opts K) : bin_fuel o = 2 * (o.max_bin - 1).toNat + 1 := rfl

/-- If `find_best_split` finds no split of the whole range, the driver loop discards
the only work item: no row is marked and the bin counter stays 1. -/
theorem bin_final_no_split (A : arith K) (xt : xtab K) (o : opts K)
    (h : find_best_split A 0 (xt.size - 1) xt (grand_tots xt) o = none) :
    bin_final A xt o = { q := [], breaks := List.replicate xt.size 0, num_bins := 1 } := by
  have hstep : bin_step A xt (grand_tots xt) o (bin_init xt)
      = { q := [], breaks := List.replicate xt.size 0, num_bins := 1 } := by
    have hq : (bin_init xt).q = [{ start := 0, stop := xt.size - 1 }] := rfl
    unfold bin_step
    rw [hq]
    simp only [h]
    rfl
  rw [bin_final, bin_fuel_succ, bin_iter, hstep, bin_iter_empty _ _ _ _ _ _ rfl]

/-- If `find_best_split` finds no split of the whole range, `bin` returns the sentinel
followed by one slot that is never written. -/
theorem bin_no_split (A : arith K) (xt : xtab K) (o : opts K)
    (h : find_best_split A 0 (xt.size - 1) xt (grand_tots xt) o = none) :
    bin A xt o = [some Dbl.ninf, none] := by
  have hm : marked_values xt (List.replicate xt.size 0) = [] := by
    apply List.eq_nil_of_length_eq_zero
    rw [marked_values_length, marked_count_init]
  rw [bin, bin_final_no_split A xt o h, assemble_eq]
  simp only [hm]
  rfl

/-- The population of a range of rows inside the table is at most the population of
the table. -/
theorem population_le_total (xt : xtab K) (start stop : Nat) (h1 : start ≤ stop + 1)
    (h2 : stop + 1 ≤ xt.size) :
    population xt start (stop + 1) ≤ population xt 0 xt.size := by
  unfold population
  have z1 := zero_sum_split xt 0 start xt.size (Nat.zero_le _) (by omega)
  have z2 := zero_sum_split xt start (stop + 1) xt.size h1 h2
  have o1 := ones_sum_split xt 0 start xt.size (Nat.zero_le _) (by omega)
  have o2 := ones_sum_split xt start (stop + 1) xt.size h1 h2
  omega

theorem population_split (xt : xtab K) (a b c : Nat) (hab : a ≤ b) (hbc : b ≤ c) :
    population xt a c = population xt a b + population xt b c := by
  unfold population
  rw [zero_sum_split xt a b c hab hbc, ones_sum_split xt a b c hab hbc]
  omega

/-- With `2 * min_cnt` above the population of the table, `find_best_split` returns
the sentinel for every range of rows of the table. -/
theorem fbs_floor_too_high (A : arith K) (xt : xtab K) (grand_tot : Dbl K × Dbl K)
    (o : opts K) (h : (population xt 0 xt.size : Int) < 2 * o.min_cnt)
    (start stop : Nat) (hs : stop < xt.size) :
    find_best_split A start stop xt grand_tot o = none := by
  cases hf : find_best_split A start stop xt grand_tot o with
  | none => rfl
  | some s =>
    exfalso
    obtain ⟨h1, h2, hv, _, _, _⟩ := fbs_some A xt grand_tot o start stop s hf
    have hsv := (cut_valid_iff A xt grand_tot o start stop s h1 h2).1 hv
    unfold spec_valid at hsv
    simp only [not_or, not_lt] at hsv
    have hsplit := population_split xt start (s + 1) (stop + 1) (by omega) (by omega)
    have hle := population_le_total xt start stop (by omega) (by omega)
    have ha := hsv.1
    have hd := hsv.2.1
    omega

/-! ## The invariant of the work queue -/

theorem getD_set_self (l : List Nat) (s v : Nat) (h : s < l.length) :
    (l.set s v).getD s 0 = v := by
  simp [List.getD_eq_getElem?_getD, List.getElem?_set_self h]

theorem filter_set_length_eq (l : List Nat) (s : Nat) (is : List Nat) (hnd : is.Nodup)
    (hs : s ∈ is) (hl : s < l.length) (h0 : l.getD s 0 ≠ 1) :
    (is.filter (fun i => (l.set s 1).getD i 0 = 1)).length
      = (is.filter (fun i => l.getD i 0 = 1)).length + 1 := by
  have hsame : ∀ t : List Nat, s ∉ t →
      (t.filter (fun i => (l.set s 1).getD i 0 = 1)).length
        = (t.filter (fun i => l.getD i 0 = 1)).length := by
    intro t ht
    congr 1
    apply List.filter_congr
    intro i hi
    have : i ≠ s := fun e => ht (e ▸ hi)
    rw [getD_set_ne l s i 1 this]
  induction is with
  | nil => simp at hs
  | cons a t ih =>
    have hnd' := List.nodup_cons.1 hnd
    by_cases has : a = s
    · subst has
      have e := hsame t hnd'.1
      rw [List.filter_cons, List.filter_cons]
      simp only [getD_set_self l a 1 hl, h0, decide_True, decide_False, if_true,
        Bool.false_eq_true, if_false, List.length_cons]
      omega
    · have hs' : s ∈ t := by
        rcases List.mem_cons.1 hs with e | e
        · exact absurd e.symm has
        · exact e
      have e := ih hnd'.2 hs'
      rw [List.filter_cons, List.filter_cons, getD_set_ne l s a 1 has]
      split_ifs <;> first | omega | (simp only [List.length_cons]; omega)

/-- Marking a row of the table that was not marked raises the number of marked rows
by exactly one. -/
theorem marked_count_set_eq (xt : xtab K) (breaks : List Nat) (s : Nat)
    (hlen : breaks.length = xt.size) (hs : s < xt.size) (h0 : breaks.getD s 0 = 0) :
    marked_count xt (breaks.set s 1) = marked_count xt breaks + 1 :=
  filter_set_length_eq breaks s (List.range xt.size) (List.nodup_range _)
    (List.mem_range.2 hs) (by omega) (by omega)

theorem queue_inv_init (xt : xtab K) (o : opts K) : queue_inv xt o (bin_init xt) := by
  have hz : ∀ i, (List.replicate xt.size 0).getD i 0 = 0 := by
    intro i
    simp only [List.getD_eq_getElem?_getD, List.getElem?_replicate]
    split_ifs <;> rfl
  refine ⟨?_, ?_, ?_, ?_, ?_, ?_, ?_⟩
  · intro w hw
    simp only [bin_init, enqueue, List.nil_append, List.mem_singleton] at hw
    subst hw
    exact ⟨Nat.zero_le _, le_refl _⟩
  · simp [bin_init, enqueue]
  · simp [bin_init]
  · intro w _ i _ _
    exact hz i
  · intro i hi
    change (List.replicate xt.size 0).getD i 0 = 1 at hi
    rw [hz i] at hi
    exact absurd hi (by decide)
  · simp [bin_init, marked_count_init]
  · intro a b hb
    left
    obtain ⟨_, _, ha, hb', _⟩ := hb
    change (a = 0 ∨ (List.replicate xt.size 0).getD (a - 1) 0 = 1) at ha
    change (b = xt.size - 1 ∨ (List.replicate xt.size 0).getD b 0 = 1) at hb'
    rw [hz] at ha hb'
    refine ⟨?_, ?_⟩
    · rcases ha with h | h
      · exact h
      · exact absurd h (by decide)
    · rcases hb' with h | h
      · exact h
      · exact absurd h (by decide)

theorem mem_enqueue (l : List work) (w x : work) : x ∈ enqueue l w ↔ x ∈ l ∨ x = w := by
  simp [enqueue]

theorem pairwise_enqueue (R : work → work → Prop) (l : List work) (w : work) :
    (enqueue l w).Pairwise R ↔ l.Pairwise R ∧ ∀ a ∈ l, R a w := by
  simp [enqueue, List.pairwise_append]

theorem mem_enqueue2 (rest : List work) (w1 w2 x : work) :
    x ∈ enqueue (enqueue rest w1) w2 ↔ x ∈ rest ∨ x = w1 ∨ x = w2 := by
  simp [enqueue, or_assoc]

/-- Both sides of the cut that `find_best_split` returns meet the population floor. -/
theorem fbs_floor (A : arith K) (xt : xtab K) (grand_tot : Dbl K × Dbl K) (o : opts K)
    (start stop s : Nat) (h : find_best_split A start stop xt grand_tot o = some s) :
    o.min_cnt ≤ (population xt start (s + 1) : Int)
    ∧ o.min_cnt ≤ (population xt (s + 1) (stop + 1) : Int) := by
  obtain ⟨h1, h2, hv, _, _, _⟩ := fbs_some A xt grand_tot o start stop s h
  have hsv := (cut_valid_iff A xt grand_tot o start stop s h1 h2).1 hv
  unfold spec_valid at hsv
  simp only [not_or, not_lt] at hsv
  exact ⟨hsv.1, hsv.2.1⟩

/-- Every iteration of the driver loop keeps the invariant of the work queue. -/
theorem queue_inv_step (A : arith K) (xt : xtab K) (gt : Dbl K × Dbl K) (o : opts K)
    (st : bin_state) (h : queue_inv xt o st) :
    queue_inv xt o (bin_step A xt gt o st) := by
  rcases bin_step_cases A xt gt o st with
    ⟨_, e⟩ | ⟨w, rest, hq, _, e⟩ | ⟨w, rest, s, hq, hf, hb, e⟩
  · rw [e]; exact h
  · rw [e]
    have hsub : ∀ x ∈ rest, x ∈ st.q := by
      intro x hx; rw [hq]; exact List.mem_cons_of_mem _ hx
    have hd := h.disj
    rw [hq] at hd
    exact ⟨fun x hx => h.bounds x (hsub x hx), (List.pairwise_cons.1 hd).2, h.len,
      fun x hx => h.inside x (hsub x hx), h.below_last, h.count, h.floor⟩
  · rw [e]
    have hw : w ∈ st.q := by rw [hq]; exact List.mem_cons_self _ _
    have hsub : ∀ x ∈ rest, x ∈ st.q := by
      intro x hx; rw [hq]; exact List.mem_cons_of_mem _ hx
    obtain ⟨bw1, bw2⟩ := h.bounds w hw
    obtain ⟨hs1, hs2⟩ := fbs_lt_stop A xt gt o w.start w.stop s hf
    obtain ⟨pa, pd⟩ := fbs_floor A xt gt o w.start w.stop s hf
    have hs0 : st.breaks.getD s 0 = 0 := h.inside w hw s hs1 hs2
    have hssz : s + 1 < xt.size := by omega
    have hd := h.disj
    rw [hq] at hd
    obtain ⟨hdw, hdr⟩ := List.pairwise_cons.1 hd
    have hself : (st.breaks.set s 1).getD s 0 = 1 :=
      getD_set_self st.breaks s 1 (by rw [h.len]; omega)
    refine ⟨?_, ?_, ?_, ?_, ?_, ?_, ?_⟩
    · intro x hx
      rcases (mem_enqueue2 rest _ _ x).1 hx with hx | hx | hx
      · exact h.bounds x (hsub x hx)
      · subst hx; exact ⟨hs1, by simp only; omega⟩
      · subst hx; exact ⟨by simp only; omega, bw2⟩
    · rw [pairwise_enqueue, pairwise_enqueue]
      refine ⟨⟨hdr, ?_⟩, ?_⟩
      · intro a ha
        rcases hdw a ha with d | d
        · exact Or.inr (by simp only; omega)
        · exact Or.inl (by simp only; omega)
      · intro a ha
        rcases (mem_enqueue rest _ a).1 ha with ha | ha
        · rcases hdw a ha with d | d
          · exact Or.inr (by simp only; omega)
          · exact Or.inl (by simp only; omega)
        · subst ha
          exact Or.inl (by simp only; omega)
    · simp only [List.length_set]; exact h.len
    · intro x hx i hi1 hi2
      simp only
      rcases (mem_enqueue2 rest _ _ x).1 hx with hx | hx | hx
      · have hne : i ≠ s := by
          rcases hdw x hx with d | d <;> omega
        rw [getD_set_ne _ _ _ _ hne]
        exact h.inside x (hsub x hx) i hi1 hi2
      · subst hx
        simp only at hi1 hi2
        rw [getD_set_ne _ _ _ _ (by omega)]
        exact h.inside w hw i hi1 (by omega)
      · subst hx
        simp only at hi1 hi2
        rw [getD_set_ne _ _ _ _ (by omega)]
        exact h.inside w hw i (by omega) hi2
    · intro i hi
      simp only at hi
      by_cases hne : i = s
      · subst hne; exact hssz
      · rw [getD_set_ne _ _ _ _ hne] at hi
        exact h.below_last i hi
    · simp only
      rw [marked_count_set_eq xt st.breaks s h.len (by omega) hs0]
      have := h.count
      push_cast
      omega
    · intro a b hbin
      simp only at hbin
      obtain ⟨hab, hbs, hl, hr, hin⟩ := hbin
      by_cases hbS : b = s
      · -- the bin ends at the new mark
        right
        subst hbS
        have hale : a ≤ w.start := by
          by_contra hc
          have ha0 : a ≠ 0 := by omega
          rcases hl with hl | hl
          · exact ha0 hl
          · rw [getD_set_ne _ _ _ _ (by omega)] at hl
            have := h.inside w hw (a - 1) (by omega) (by omega)
            rw [this] at hl
            exact absurd hl (by decide)
        have := population_split xt a w.start (b + 1) hale (by omega)
        omega
      · by_cases haS : a = s + 1
        · -- the bin starts right after the new mark
          right
          subst haS
          have hble : w.stop ≤ b := by
            by_contra hc
            rcases hr with hr | hr
            · omega
            · rw [getD_set_ne _ _ _ _ hbS] at hr
              have := h.inside w hw b (by omega) (by omega)
              rw [this] at hr
              exact absurd hr (by decide)
          have := population_split xt (s + 1) (w.stop + 1) (b + 1) (by omega) (by omega)
          omega
        · -- the bin was a bin before
          have hold : is_bin xt st.breaks a b := by
            refine ⟨hab, hbs, ?_, ?_, ?_⟩
            · rcases hl with hl | hl
              · exact Or.inl hl
              · by_cases ha0 : a = 0
                · exact Or.inl ha0
                · rw [getD_set_ne _ _ _ _ (by omega)] at hl
                  exact Or.inr hl
            · rcases hr with hr | hr
              · exact Or.inl hr
              · rw [getD_set_ne _ _ _ _ hbS] at hr
                exact Or.inr hr
            · intro i hi1 hi2
              have hne : i ≠ s := by
                intro e'
                subst e'
                exact hin i hi1 hi2 hself
              have := hin i hi1 hi2
              rw [getD_set_ne _ _ _ _ hne] at this
              exact this
          rcases h.floor a b hold with ⟨ha0, hbl⟩ | hp
          · exfalso
            exact hin s (by omega) (by omega) hself
          · exact Or.inr hp

theorem queue_inv_iter (A : arith K) (xt : xtab K) (gt : Dbl K × Dbl K) (o : opts K)
    (n : Nat) : queue_inv xt o (bin_iter A xt gt o n (bin_init xt)) :=
  bin_iter_induct A xt gt o (queue_inv xt o) (queue_inv_step A xt gt o) n _
    (queue_inv_init xt o)

theorem bin_iter_succ (A : arith K) (xt : xtab K) (gt : Dbl K × Dbl K) (o : opts K)
    (n : Nat) (st : bin_state) :
    bin_iter A xt gt o (n + 1) st = bin_step A xt gt o (bin_iter A xt gt o n st) := by
  induction n generalizing st with
  | zero => rfl
  | succ n ih => rw [bin_iter, ih, ← bin_iter]

/-! ## Budget exhaustion and termination -/

theorem bin_iter_add (A : arith K) (xt : xtab K) (gt : Dbl K × Dbl K) (o : opts K)
    (a b : Nat) (st : bin_state) :
    bin_iter A xt gt o (a + b) st = bin_iter A xt gt o b (bin_iter A xt gt o a st) := by
  induction a generalizing st with
  | zero => rw [Nat.zero_add]; rfl
  | succ a ih => rw [Nat.add_right_comm, bin_iter, ih, ← bin_iter]

/-- Once the bin counter has reached `max_bin`, the remaining iterations only empty
the queue: `breaks` and the counter do not change any more. -/
theorem bin_iter_drain (A : arith K) (xt : xtab K) (gt : Dbl K × Dbl K) (o : opts K)
    (st : bin_state) (h : ¬ st.num_bins < o.max_bin) (n : Nat) :
    (bin_iter A xt gt o n st).breaks = st.breaks
    ∧ (bin_iter A xt gt o n st).num_bins = st.num_bins := by
  refine bin_iter_induct A xt gt o
    (fun st' => st'.breaks = st.breaks ∧ st'.num_bins = st.num_bins) ?_ n st ⟨rfl, rfl⟩
  intro st' hst'
  rcases bin_step_cases A xt gt o st' with
    ⟨_, e⟩ | ⟨w, rest, _, _, e⟩ | ⟨w, rest, s, _, _, hb, e⟩
  · rw [e]; exact hst'
  · rw [e]; exact hst'
  · exfalso; rw [hst'.2] at hb; exact h hb

/-- An iteration of the driver loop that finds a split within the budget. -/
theorem bin_step_accept (A : arith K) (xt : xtab K) (gt : Dbl K × Dbl K) (o : opts K)
    (st : bin_state) (w : work) (rest : List work) (s : Nat) (hq : st.q = w :: rest)
    (hf : find_best_split A w.start w.stop xt gt o = some s)
    (hb : st.num_bins < o.max_bin) :
    bin_step A xt gt o st
      = { q := enqueue (enqueue rest { start := w.start, stop := s })
            { start := s + 1, stop := w.stop },
          breaks := st.breaks.set s 1,
          num_bins := st.num_bins + 1 } := by
  unfold bin_step
  rw [hq]
  simp only [hf, hb, if_true]

theorem fbs_loop_eq (A : arith K) (xt : xtab K) (tot grand_tot : Dbl K × Dbl K) (o : opts K)
    (stop n i : Nat) (st : fbs_state K) (h : i + n = stop + 1) :
    fbs_loop A xt tot grand_tot o stop n i st
      = some ((List.range' i n).foldl (fbs_body A xt tot grand_tot o) st) := by
  induction n generalizing i st with
  | zero =>
    have : ¬ i ≤ stop := by omega
    simp [fbs_loop, this]
  | succ n ih =>
    have : i ≤ stop := by omega
    rw [fbs_loop, if_pos this, ih _ _ (by omega), List.range'_succ, List.foldl_cons]

theorem fbs_loop_short (A : arith K) (xt : xtab K) (tot grand_tot : Dbl K × Dbl K)
    (o : opts K) (stop fuel i : Nat) (st : fbs_state K) (h : i + fuel < stop + 1) :
    fbs_loop A xt tot grand_tot o stop fuel i st = none := by
  induction fuel generalizing i st with
  | zero =>
    have : i ≤ stop := by omega
    simp [fbs_loop, this]
  | succ n ih =>
    have : i ≤ stop := by omega
    rw [fbs_loop, if_pos this, ih _ _ (by omega)]

theorem bin_fuel_eq (o : opts K) : (2 * max o.max_bin 1 - 1).toNat = bin_fuel o := by
  unfold bin_fuel
  rcases le_total o.max_bin 1 with h | h
  · rw [max_eq_right h]
    have : (o.max_bin - 1).toNat = 0 := by omega
    rw [this]; rfl
  · rw [max_eq_left h]
    omega

/-- Marking two distinct rows of a table without marks leaves exactly these two rows
marked. -/
theorem two_marks (n s s' : Nat) (hs : s < n) (hs' : s' < n) (i : Nat) :
    (((List.replicate n 0).set s 1).set s' 1).getD i 0 = 1 ↔ i = s' ∨ i = s := by
  have hz : (List.replicate n 0).getD i 0 = 0 := by
    simp only [List.getD_eq_getElem?_getD, List.getElem?_replicate]
    split_ifs <;> rfl
  by_cases h1 : i = s'
  · subst h1
    rw [getD_set_self _ _ _ (by simp [hs'])]
    simp
  · rw [getD_set_ne _ _ _ _ h1]
    by_cases h2 : i = s
    · subst h2
      rw [getD_set_self _ _ _ (by simp [hs])]
      simp
    · rw [getD_set_ne _ _ _ _ h2, hz]
      simp [h1, h2]

/-- The rows marked in a table with exactly the marks `s' < s`. -/
theorem marked_rows_two (xt : xtab K) (breaks : List Nat) (s s' : Nat) (h1 : s' < s)
    (h2 : s < xt.size) (h : ∀ i, breaks.getD i 0 = 1 ↔ i = s' ∨ i = s) :
    marked_rows xt breaks = [s', s] := by
  have hsorted : (marked_rows xt breaks).Sorted (· < ·) :=
    (List.pairwise_lt_range xt.size).filter _
  have hsorted2 : [s', s].Sorted (· < ·) := by simp [h1]
  apply List.eq_of_perm_of_sorted _ hsorted hsorted2
  rw [List.perm_ext_iff_of_nodup hsorted.nodup hsorted2.nodup]
  intro i
  simp only [marked_rows, List.mem_filter, List.mem_range, decide_eq_true_eq, h,
    List.mem_cons, List.mem_singleton, List.not_mem_nil, or_false]
  constructor
  · exact fun hi => hi.2
  · intro hi
    refine ⟨?_, hi⟩
    rcases hi with e | e <;> omega

/-! ## The information value over the reals -/

/-- One side's contribution to the information value is non-negative over the reals. -/
theorem side_term_nonneg (p q : ℝ) (hp : 0 < p) (hq : 0 < q) :
    0 ≤ Real.log (p / q) * (p - q) := by
  rcases le_total q p with h | h
  · exact mul_nonneg (Real.log_nonneg ((one_le_div hq).2 h)) (sub_nonneg.2 h)
  · exact mul_nonneg_of_nonpos_of_nonpos
      (Real.log_nonpos (le_of_lt (div_pos hp hq)) ((div_le_one hq).2 h)) (sub_nonpos.2 h)

/-- Over the reals, with positive grand totals, a finite information value of a cut
of `find_best_split` is non-negative. -/
theorem cut_iv_real_nonneg (xt : xtab ℝ) (t0 t1 : ℝ) (ht0 : 0 < t0) (ht1 : 0 < t1)
    (start stop i : Nat) (h1 : start ≤ i) (h2 : i ≤ stop) (x : ℝ)
    (hx : (cut_iv (exact_arith Real.log) xt (Dbl.fin t0, Dbl.fin t1) start stop i).iv = Dbl.fin x) :
    0 ≤ x := by
  have hpos : 0 < zero_sum xt start (i + 1) ∧ 0 < ones_sum xt start (i + 1)
      ∧ 0 < zero_sum xt (i + 1) (stop + 1) ∧ 0 < ones_sum xt (i + 1) (stop + 1) := by
    by_contra hc
    have hz : zero_sum xt start (i + 1) = 0 ∨ ones_sum xt start (i + 1) = 0
        ∨ zero_sum xt (i + 1) (stop + 1) = 0 ∨ ones_sum xt (i + 1) (stop + 1) = 0 := by
      omega
    have := cut_pure_not_finite Real.log xt t0 t1 ht0 ht1 start stop i h1 h2 hz
    rw [hx] at this
    exact Bool.noConfusion this
  obtain ⟨p1, p2, p3, p4⟩ := hpos
  have c1 : (0 : ℝ) < (zero_sum xt start (i + 1) : ℝ) := Nat.cast_pos.2 p1
  have c2 : (0 : ℝ) < (ones_sum xt start (i + 1) : ℝ) := Nat.cast_pos.2 p2
  have c3 : (0 : ℝ) < (zero_sum xt (i + 1) (stop + 1) : ℝ) := Nat.cast_pos.2 p3
  have c4 : (0 : ℝ) < (ones_sum xt (i + 1) (stop + 1) : ℝ) := Nat.cast_pos.2 p4
  unfold cut_iv at hx
  rw [(calc_iv_sides Real.log _ _ _).1, dsc_at_eq xt start stop i h1 h2] at hx
  simp only [asc_at, get_xtab_totals, Dbl.ofNat] at hx
  rw [(side_pos Real.log _ _ t0 t1 c1 c2 ht0 ht1).2,
    (side_pos Real.log _ _ t0 t1 c3 c4 ht0 ht1).2, dbl_add_fin] at hx
  have e := Dbl.fin.inj hx
  rw [← e]
  exact add_nonneg
    (side_term_nonneg _ _ (div_pos c1 ht0) (div_pos c2 ht1))
    (side_term_nonneg _ _ (div_pos c3 ht0) (div_pos c4 ht1))

/-! ## The function `calc_sv_woe` -/

theorem calc_sv_woe_fold (dx dy : List (Dbl K)) (value : Dbl K) (is : List Nat)
    (a b : Nat) :
    is.foldl (calc_sv_woe_body dx dy value) (Dbl.ofNat a, Dbl.ofNat b)
      = (Dbl.ofNat (a + (is.filter (fun i => Dbl.eq (dx.getD i Dbl.nan) value
            && Dbl.eq (dy.getD i Dbl.nan) (Dbl.fin 0))).length),
         Dbl.ofNat (b + (is.filter (fun i => Dbl.eq (dx.getD i Dbl.nan) value
            && Dbl.eq (dy.getD i Dbl.nan) (Dbl.fin 1))).length)) := by
  induction is generalizing a b with
  | nil => rfl
  | cons i t ih =>
    have h1 : ∀ n : Nat, Dbl.add (Dbl.ofNat n : Dbl K) (Dbl.fin 1) = Dbl.ofNat (n + 1) := by
      intro n; simp [Dbl.ofNat, Dbl.add]
    have h0 : ∀ n : Nat, Dbl.add (Dbl.ofNat n : Dbl K) (Dbl.fin 0) = Dbl.ofNat n := by
      intro n; simp [Dbl.ofNat, Dbl.add]
    have hb : calc_sv_woe_body dx dy value (Dbl.ofNat a, Dbl.ofNat b) i
        = (Dbl.ofNat (a + if (Dbl.eq (dx.getD i Dbl.nan) value
              && Dbl.eq (dy.getD i Dbl.nan) (Dbl.fin 0)) = true then 1 else 0),
           Dbl.ofNat (b + if (Dbl.eq (dx.getD i Dbl.nan) value
              && Dbl.eq (dy.getD i Dbl.nan) (Dbl.fin 1)) = true then 1 else 0)) := by
      unfold calc_sv_woe_body
      by_cases hx : Dbl.eq (dx.getD i Dbl.nan) value = true
      · by_cases hy0 : Dbl.eq (dy.getD i Dbl.nan) (Dbl.fin 0) = true <;>
          by_cases hy1 : Dbl.eq (dy.getD i Dbl.nan) (Dbl.fin 1) = true <;>
          simp only [hx, hy0, hy1, if_true, if_false, Bool.and_true, Bool.and_false,
            Bool.true_and, Bool.and_self, Bool.false_eq_true, h0, h1, Nat.add_zero]
      · simp only [hx, if_false, Bool.false_and, Bool.false_eq_true, Nat.add_zero]
    rw [List.foldl_cons, hb, ih, List.filter_cons, List.filter_cons]
    congr 2
    · split_ifs <;> first | omega | (simp only [List.length_cons]; omega)
    · split_ifs <;> first | omega | (simp only [List.length_cons]; omega)

/-- The value that `calc_sv_woe` returns: the weight of evidence as `calc_iv` computes
it, but with the two classes exchanged (ones over zeros). -/
theorem calc_sv_woe_eq (ln : K → K) (dx dy : List (Dbl K)) (size : Nat) (value : Dbl K)
    (tots : Dbl K × Dbl K) :
    calc_sv_woe (exact_arith ln) dx dy size value tots
      = side_woe ln (Dbl.ofNat (sv_ones_ct dx dy size value),
          Dbl.ofNat (sv_zero_ct dx dy size value)) (tots.2, tots.1) := by
  have h := calc_sv_woe_fold dx dy value (List.range size) 0 0
  have hz : (Dbl.ofNat 0 : Dbl K) = Dbl.fin 0 := by simp [Dbl.ofNat]
  rw [hz] at h
  unfold calc_sv_woe
  simp only [h, Nat.zero_add, Dbl.rdiv, dbl_round_exact]
  rfl

/-- Among the four observations `x = [1,1,1,2]`, `y = [0,0,1,1]` the value 1 has two
observations of outcome 0 and one of outcome 1. -/
theorem sv_counts : sv_zero_ct (sv_dx K) (sv_dy K) 4 (Dbl.fin 1) = 2
    ∧ sv_ones_ct (sv_dx K) (sv_dy K) 4 (Dbl.fin 1) = 1 := by
  constructor <;>
    norm_num [sv_zero_ct, sv_ones_ct, sv_dx, sv_dy, List.range, List.range.loop, Dbl.eq,
      List.filter_cons]

/-- Over the reals, with observations of both classes and positive totals,
`calc_sv_woe` returns the negative of the weight of evidence
`ln((zero_ct / tots[0]) / (ones_ct / tots[1]))`. -/
theorem calc_sv_woe_real (dx dy : List (Dbl ℝ)) (size : Nat) (value : Dbl ℝ) (t0 t1 : ℝ)
    (ht0 : 0 < t0) (ht1 : 0 < t1) (hz : 0 < sv_zero_ct dx dy size value)
    (ho : 0 < sv_ones_ct dx dy size value) :
    calc_sv_woe (exact_arith Real.log) dx dy size value (Dbl.fin t0, Dbl.fin t1)
      = Dbl.fin (- Real.log (((sv_zero_ct dx dy size value : ℝ) / t0)
          / ((sv_ones_ct dx dy size value : ℝ) / t1))) := by
  have cz : (0 : ℝ) < (sv_zero_ct dx dy size value : ℝ) := Nat.cast_pos.2 hz
  have co : (0 : ℝ) < (sv_ones_ct dx dy size value : ℝ) := Nat.cast_pos.2 ho
  rw [calc_sv_woe_eq]
  simp only [Dbl.ofNat]
  rw [(side_pos Real.log _ _ t1 t0 co cz ht1 ht0).1, ← Real.log_inv, inv_div]

/-! ## The origin of the marks -/

/-- Marking a row leaves every marked row marked. -/
theorem getD_set_mono (l : List Nat) (s i : Nat) (h : l.getD i 0 = 1) :
    (l.set s 1).getD i 0 = 1 := by
  by_cases hne : i = s
  · subst hne
    have hlt : i < l.length := by
      by_contra hc
      rw [List.getD_eq_default _ _ (by omega)] at h
      exact absurd h (by decide)
    exact getD_set_self l i 1 hlt
  · rw [getD_set_ne _ _ _ _ hne]; exact h

/-- The trend sign of the cut that `find_best_split` returns equals the configured
monotonicity, when that is not zero. -/
theorem fbs_trend (A : arith K) (xt : xtab K) (grand_tot : Dbl K × Dbl K) (o : opts K)
    (start stop s : Nat) (hm : o.mono ≠ 0)
    (h : find_best_split A start stop xt grand_tot o = some s) :
    woe_sign (cut_iv A xt grand_tot start stop s) = o.mono := by
  obtain ⟨_, _, hv, _, _, _⟩ := fbs_some A xt grand_tot o start stop s h
  unfold cut_valid at hv
  rw [decide_eq_true_eq, fbs_valid_ne] at hv
  exact hv.2.2.2.2 hm

theorem trend_inv_init (A : arith K) (xt : xtab K) (o : opts K) :
    trend_inv A xt o (bin_init xt) := by
  have hz : ∀ i, (List.replicate xt.size 0).getD i 0 = 0 := by
    intro i
    simp only [List.getD_eq_getElem?_getD, List.getElem?_replicate]
    split_ifs <;> rfl
  refine ⟨?_, ?_, ?_⟩
  · intro w hw
    simp only [bin_init, enqueue, List.nil_append, List.mem_singleton] at hw
    subst hw
    exact Or.inl rfl
  · intro w hw
    simp only [bin_init, enqueue, List.nil_append, List.mem_singleton] at hw
    subst hw
    exact Or.inl rfl
  · intro i hi
    change (List.replicate xt.size 0).getD i 0 = 1 at hi
    rw [hz i] at hi
    exact absurd hi (by decide)

/-- Every iteration of the driver loop keeps the invariant on the origin of the
marks. -/
theorem trend_inv_step (A : arith K) (xt : xtab K) (o : opts K) (st : bin_state)
    (hq : queue_inv xt o st) (h : trend_inv A xt o st) :
    trend_inv A xt o (bin_step A xt (grand_tots xt) o st) := by
  rcases bin_step_cases A xt (grand_tots xt) o st with
    ⟨_, e⟩ | ⟨w, rest, hq0, _, e⟩ | ⟨w, rest, s, hq0, hf, hb, e⟩
  · rw [e]; exact h
  · rw [e]
    have hsub : ∀ x ∈ rest, x ∈ st.q := by
      intro x hx; rw [hq0]; exact List.mem_cons_of_mem _ hx
    exact ⟨fun x hx => h.qleft x (hsub x hx), fun x hx => h.qright x (hsub x hx), h.marks⟩
  · rw [e]
    have hw : w ∈ st.q := by rw [hq0]; exact List.mem_cons_self _ _
    have hsub : ∀ x ∈ rest, x ∈ st.q := by
      intro x hx; rw [hq0]; exact List.mem_cons_of_mem _ hx
    obtain ⟨_, bw2⟩ := hq.bounds w hw
    obtain ⟨hs1, hs2⟩ := fbs_lt_stop A xt (grand_tots xt) o w.start w.stop s hf
    have hself : (st.breaks.set s 1).getD s 0 = 1 :=
      getD_set_self st.breaks s 1 (by rw [hq.len]; omega)
    have hl : ∀ a, (a = 0 ∨ st.breaks.getD (a - 1) 0 = 1) →
        (a = 0 ∨ (st.breaks.set s 1).getD (a - 1) 0 = 1) := by
      intro a ha
      rcases ha with ha | ha
      · exact Or.inl ha
      · exact Or.inr (getD_set_mono _ _ _ ha)
    have hr : ∀ b, (b = xt.size - 1 ∨ st.breaks.getD b 0 = 1) →
        (b = xt.size - 1 ∨ (st.breaks.set s 1).getD b 0 = 1) := by
      intro b hb'
      rcases hb' with hb' | hb'
      · exact Or.inl hb'
      · exact Or.inr (getD_set_mono _ _ _ hb')
    refine ⟨?_, ?_, ?_⟩
    · intro x hx
      simp only
      rcases (mem_enqueue2 rest _ _ x).1 hx with hx | hx | hx
      · exact hl _ (h.qleft x (hsub x hx))
      · subst hx; exact hl _ (h.qleft w hw)
      · subst hx
        right
        simp only [Nat.add_sub_cancel]
        exact hself
    · intro x hx
      simp only
      rcases (mem_enqueue2 rest _ _ x).1 hx with hx | hx | hx
      · exact hr _ (h.qright x (hsub x hx))
      · subst hx; exact Or.inr hself
      · subst hx; exact hr _ (h.qright w hw)
    · intro i hi
      simp only at hi ⊢
      by_cases hne : i = s
      · subst hne
        exact ⟨w.start, w.stop, hs1, hs2, hl _ (h.qleft w hw), hr _ (h.qright w hw), hf⟩
      · rw [getD_set_ne _ _ _ _ hne] at hi
        obtain ⟨a, b, h1, h2, h3, h4, h5⟩ := h.marks i hi
        exact ⟨a, b, h1, h2, hl _ h3, hr _ h4, h5⟩

theorem trend_inv_iter (A : arith K) (xt : xtab K) (o : opts K) (n : Nat) :
    queue_inv xt o (bin_iter A xt (grand_tots xt) o n (bin_init xt))
    ∧ trend_inv A xt o (bin_iter A xt (grand_tots xt) o n (bin_init xt)) :=
  bin_iter_induct A xt (grand_tots xt) o (fun st => queue_inv xt o st ∧ trend_inv A xt o st)
    (fun st h => ⟨queue_inv_step A xt (grand_tots xt) o st h.1, trend_inv_step A xt o st h.1 h.2⟩)
    n _ ⟨queue_inv_init xt o, trend_inv_init A xt o⟩

/-- Two adjacent final bins lie on the two sides of a cut that `find_best_split`
returned: the break between them is the index returned for a range that contains both
bins. -/
theorem adjacent_bins_cut (A : arith K) (xt : xtab K) (o : opts K) (st : bin_state)
    (h : trend_inv A xt o st) (x s c : Nat) (h1 : is_bin xt st.breaks x s)
    (h2 : is_bin xt st.breaks (s + 1) c) :
    ∃ a b, a ≤ x ∧ s < b ∧ c ≤ b
      ∧ (b = xt.size - 1 ∨ st.breaks.getD b 0 = 1)
      ∧ find_best_split A a b xt (grand_tots xt) o = some s := by
  obtain ⟨_, _, _, hr1, hin1⟩ := h1
  obtain ⟨hle2, hc2, _, _, hin2⟩ := h2
  have hs : st.breaks.getD s 0 = 1 := by
    rcases hr1 with e | e
    · omega
    · exact e
  obtain ⟨a, b, ha, hb, hl, hr, hf⟩ := h.marks s hs
  refine ⟨a, b, ?_, hb, ?_, hr, hf⟩
  · by_contra hc
    rcases hl with e | e
    · omega
    · exact hin1 (a - 1) (by omega) (by omega) e
  · by_contra hc
    rcases hr with e | e
    · omega
    · exact hin2 b (by omega) (by omega) e

/-- The weights of evidence that `calc_iv` computes for the two sides of the cut after
row `s` of the range `[a, b]` are those of the rows `a, ..., s` and of the rows
`s + 1, ..., b`, each taken as one bin. -/
theorem cut_iv_woe (A : arith K) (xt : xtab K) (a b s : Nat) (h1 : a ≤ s) (h2 : s ≤ b) :
    (cut_iv A xt (grand_tots xt) a b s).asc_woe = bin_woe A xt a s
    ∧ (cut_iv A xt (grand_tots xt) a b s).dsc_woe = bin_woe A xt (s + 1) b := by
  unfold cut_iv bin_woe
  rw [dsc_at_eq xt a b s h1 h2]
  exact ⟨rfl, rfl⟩

/-- A trend sign equal to the configured monotonicity, spelled out. -/
theorem woe_sign_eq (v : iv K) (m : Int) (h : woe_sign v = m) :
    (m = 1 → Dbl.gt v.asc_woe v.dsc_woe = true)
    ∧ (m = -1 → Dbl.gt v.asc_woe v.dsc_woe = false) := by
  unfold woe_sign at h
  by_cases hg : Dbl.gt v.asc_woe v.dsc_woe = true
  · rw [if_pos hg] at h
    exact ⟨fun _ => hg, fun e => by omega⟩
  · rw [if_neg hg] at h
    exact ⟨fun e => by omega, fun _ => by simpa using hg⟩

/-- With exactly one marked row, any two marked rows of the table coincide. -/
theorem marked_unique (xt : xtab K) (breaks : List Nat) (h : marked_count xt breaks = 1)
    (i j : Nat) (hi : i < xt.size) (hj : j < xt.size) (bi : breaks.getD i 0 = 1)
    (bj : breaks.getD j 0 = 1) : i = j := by
  unfold marked_count at h
  obtain ⟨m, hm⟩ := List.length_eq_one.1 h
  have mi : i ∈ marked_rows xt breaks := by
    simp only [marked_rows, List.mem_filter, List.mem_range, decide_eq_true_eq]
    exact ⟨hi, bi⟩
  have mj : j ∈ marked_rows xt breaks := by
    simp only [marked_rows, List.mem_filter, List.mem_range, decide_eq_true_eq]
    exact ⟨hj, bj⟩
  rw [hm, List.mem_singleton] at mi mj
  rw [mi, mj]

/-! ## A run in binary64 arithmetic -/

/-- The run of `bin` on the four-row crosstab with `monotonicity = 1` in binary64
arithmetic: the rows 0, 2 and 1 are marked, in this order. -/
theorem round_final :
    bin_final ieee xtab_round opts_mono = { q := [], breaks := [1, 1, 1, 0], num_bins := 4 } := by
  decide!

/-- The last two final bins of that run are the rows 2 and 3. -/
theorem round_bins :
    is_bin xtab_round (bin_final ieee xtab_round opts_mono).breaks 2 2
    ∧ is_bin xtab_round (bin_final ieee xtab_round opts_mono).breaks 3 3 := by
  rw [round_final]
  exact ⟨⟨le_refl _, by decide, Or.inr rfl, Or.inr rfl, fun i h1 h2 => by omega⟩,
    ⟨le_refl _, by decide, Or.inr rfl, Or.inl rfl, fun i h1 h2 => by omega⟩⟩

/-- In binary64 arithmetic `find_best_split` returns row 2 for the rows 1 to 3 of the
four-row crosstab, and row 1 for the rows 1 to 2. -/
theorem round_splits :
    find_best_split ieee 1 3 xtab_round (grand_tots xtab_round) opts_mono = some 2
    ∧ find_best_split ieee 1 2 xtab_round (grand_tots xtab_round) opts_mono = some 1 := by
  constructor <;> decide!

/-- The weights of evidence computed in binary64 for the rows 1 to 2, for row 2 and for
row 3 of the four-row crosstab: the first is greater than the third, the second equals
the third. -/
theorem round_woe :
    Dbl.gt (bin_woe ieee xtab_round 1 2) (bin_woe ieee xtab_round 3 3) = true
    ∧ bin_woe ieee xtab_round 2 2 = bin_woe ieee xtab_round 3 3 := by
  constructor <;> decide!

/-- Without a monotonicity constraint, in binary64 arithmetic, `find_best_split` returns
row 2 for the rows 1 to 3 of the four-row crosstab: the information value computed for
the cut after row 1 is smaller than the one computed for the cut after row 2, although
the two are equal without rounding. -/
theorem round_best_cut :
    find_best_split ieee 1 3 xtab_round (grand_tots xtab_round) opts_four = some 2
    ∧ Dbl.lt (cut_iv ieee xtab_round (grand_tots xtab_round) 1 3 1).iv
        (cut_iv ieee xtab_round (grand_tots xtab_round) 1 3 2).iv = true := by
  constructor <;> decide!

/-! ## The claims -/

/-- C1 (bin budget). For every crosstab and every options record with `max_bin >= 1`, in
every arithmetic, after any number `n` of iterations of the driver loop of `bin` (hence
also at exit) the bin counter satisfies `1 <= num_bins <= max_bin`; the number of marked
rows is at most `num_bins - 1`, so at most `max_bin - 1` splits are accepted; and with
`max_bin = 1` the array `breaks` is still all zero. -/
theorem bin_budget (A : arith K) (xt : xtab K) (o : opts K) (h : 1 ≤ o.max_bin) (n : Nat) :
    1 ≤ (bin_iter A xt (grand_tots xt) o n (bin_init xt)).num_bins
    ∧ (bin_iter A xt (grand_tots xt) o n (bin_init xt)).num_bins ≤ o.max_bin
    ∧ (marked_count xt (bin_iter A xt (grand_tots xt) o n (bin_init xt)).breaks : Int)
        ≤ (bin_iter A xt (grand_tots xt) o n (bin_init xt)).num_bins - 1
    ∧ (marked_count xt (bin_iter A xt (grand_tots xt) o n (bin_init xt)).breaks : Int)
        ≤ o.max_bin - 1
    ∧ (o.max_bin = 1 →
        (bin_iter A xt (grand_tots xt) o n (bin_init xt)).breaks
          = List.replicate xt.size 0) := by
  have hinv := bin_inv_iter A xt (grand_tots xt) o n
  have hmax := bin_le_max_iter A xt (grand_tots xt) o h n
  obtain ⟨h1, h2, _⟩ := hinv
  refine ⟨h1, hmax, h2, by omega, ?_⟩
  intro h1
  exact (bin_max_one_iter A xt (grand_tots xt) o h1 n).1

/-- Witness for C1: the three-row crosstab with `max_bin = 4`, after three
iterations of the driver loop. -/
theorem bin_budget_witness :
    (1 : Int) ≤ opts_four.max_bin
    ∧ 1 ≤ (bin_iter exact_q xtab_three (grand_tots xtab_three) opts_four 3
        (bin_init xtab_three)).num_bins
    ∧ (bin_iter exact_q xtab_three (grand_tots xtab_three) opts_four 3
        (bin_init xtab_three)).num_bins ≤ opts_four.max_bin :=
  have h := bin_budget exact_q xtab_three opts_four (by decide) 3
  ⟨by decide, h.1, h.2.1⟩

/-- C2 (output shape). For every run of `bin`, in every arithmetic, the driver loop
exits, the returned array has `num_bins + 1` slots, at most `num_bins - 1` rows are
marked, and the last slot (index `num_bins`) is never written: it holds whatever
`allocVector` left there. The claim that all `num_bins + 1` entries are determined by
the run fails on the code. -/
theorem bin_last_slot_unwritten (A : arith K) (xt : xtab K) (o : opts K) :
    (bin_final A xt o).q = []
    ∧ (bin A xt o).length = ((bin_final A xt o).num_bins + 1).toNat
    ∧ (bin A xt o)[0]? = some (some Dbl.ninf)
    ∧ (marked_count xt (bin_final A xt o).breaks : Int) ≤ (bin_final A xt o).num_bins - 1
    ∧ (bin A xt o)[(bin_final A xt o).num_bins.toNat]? = some none := by
  obtain ⟨h1, h2, _⟩ := bin_inv_iter A xt (grand_tots xt) o (bin_fuel o)
  have hlen : (bin A xt o).length = ((bin_final A xt o).num_bins + 1).toNat := by
    simp [bin, assemble_eq, put_length]
  refine ⟨bin_final_q A xt o, hlen, ?_, h2, ?_⟩
  · simp only [bin, assemble_eq]
    rw [put_low _ _ _ _ (le_refl _), List.getElem?_set_self]
    simp only [List.length_replicate]
    change 1 ≤ (bin_final A xt o).num_bins at h1
    omega
  · simp only [bin, assemble_eq]
    change 1 ≤ (bin_final A xt o).num_bins at h1
    change (marked_count xt (bin_final A xt o).breaks : Int)
      ≤ (bin_final A xt o).num_bins - 1 at h2
    rw [put_high, List.getElem?_set_ne (by omega), List.getElem?_replicate]
    · rw [if_pos (by omega)]
    · have : (marked_values xt (bin_final A xt o).breaks).length
          = marked_count xt (bin_final A xt o).breaks := by
        simp [marked_values, marked_count]
      omega

/-- C3 (monotonic boundaries). For every crosstab whose arrays have `size` entries and
whose row values ascend strictly, every options record and every arithmetic, slot 0 of
the array returned by `bin` is negative infinity, the slots `1, 2, ...` after it hold
exactly the values of the marked rows in row order, no other slot is written, and these
break values form a strictly increasing sequence of crosstab row values. -/
theorem bin_breaks_increasing (A : arith K) (xt : xtab K) (o : opts K)
    (hwf : xt.values.length = xt.size)
    (hasc : xt.values.Chain' (fun a b => Dbl.lt a b = true)) :
    (bin A xt o)[0]? = some (some Dbl.ninf)
    ∧ (∀ k v, (marked_values xt (bin_final A xt o).breaks)[k]? = some v →
        (bin A xt o)[k + 1]? = some (some v))
    ∧ (∀ k, (marked_values xt (bin_final A xt o).breaks).length < k →
        k < (bin A xt o).length → (bin A xt o)[k]? = some none)
    ∧ (marked_values xt (bin_final A xt o).breaks).Pairwise
        (fun a b => Dbl.lt a b = true)
    ∧ (∀ v ∈ marked_values xt (bin_final A xt o).breaks, v ∈ xt.values) := by
  obtain ⟨h1, h2, _⟩ := bin_inv_iter A xt (grand_tots xt) o (bin_fuel o)
  change 1 ≤ (bin_final A xt o).num_bins at h1
  change (marked_count xt (bin_final A xt o).breaks : Int)
    ≤ (bin_final A xt o).num_bins - 1 at h2
  have hml := marked_values_length xt (bin_final A xt o).breaks
  have hlen : (bin A xt o).length = ((bin_final A xt o).num_bins + 1).toNat := by
    simp [bin, assemble_eq, put_length]
  refine ⟨(bin_slot_zero A xt o), ?_, ?_,
    marked_values_pairwise xt _ hwf hasc, marked_values_mem xt _ hwf⟩
  · intro k v hv
    have hk : k < (marked_values xt (bin_final A xt o).breaks).length := by
      by_contra hc
      rw [List.getElem?_eq_none (by omega)] at hv
      exact Option.noConfusion hv
    simp only [bin, assemble_eq]
    have := put_mid ((List.replicate ((bin_final A xt o).num_bins + 1).toNat none).set 0
      (some Dbl.ninf)) 0 _ k v hv (by simp only [List.length_set, List.length_replicate]; omega)
    rw [show k + 1 = 0 + 1 + k by omega]
    exact this
  · intro k hk hk2
    rw [hlen] at hk2
    simp only [bin, assemble_eq]
    rw [put_high _ _ _ _ (by omega), List.getElem?_set_ne (by omega),
      List.getElem?_replicate, if_pos hk2]

/-- Witness for C3: the three-row crosstab, whose values 1, 2, 3 ascend. -/
theorem bin_breaks_increasing_witness :
    xtab_three.values.length = xtab_three.size
    ∧ xtab_three.values.Chain' (fun a b => Dbl.lt a b = true)
    ∧ (marked_values xtab_three (bin_final exact_q xtab_three opts_four).breaks).Pairwise
        (fun a b => Dbl.lt a b = true) :=
  have hasc : xtab_three.values.Chain' (fun a b => Dbl.lt a b = true) := by
    norm_num [xtab_three, Dbl.lt]
  ⟨by decide, hasc, (bin_breaks_increasing exact_q xtab_three opts_four (by decide) hasc).2.2.2.1⟩

/-- C4 (population floor). In every arithmetic, whenever
`find_best_split(start, stop, ...)` returns an index `s`, that index lies in
`[start, stop]` and the ascending side `[start, s]` and the descending side
`[s + 1, stop]` each have a total population (`zero_ct + ones_ct` summed over the side)
of at least `min_cnt`; and a driver iteration that takes the work item `[start, stop]`
from the queue marks no row other than `s`. -/
theorem population_floor (A : arith K) (xt : xtab K) (grand_tot : Dbl K × Dbl K)
    (o : opts K) (start stop s : Nat)
    (h : find_best_split A start stop xt grand_tot o = some s) :
    start ≤ s ∧ s ≤ stop
    ∧ o.min_cnt ≤ (population xt start (s + 1) : Int)
    ∧ o.min_cnt ≤ (population xt (s + 1) (stop + 1) : Int)
    ∧ (∀ st rest, st.q = { start := start, stop := stop } :: rest →
        (bin_step A xt grand_tot o st).breaks = st.breaks
        ∨ (bin_step A xt grand_tot o st).breaks = st.breaks.set s 1) := by
  obtain ⟨h1, h2, hv, _, _, _⟩ := fbs_some A xt grand_tot o start stop s h
  have hsv := (cut_valid_iff A xt grand_tot o start stop s h1 h2).1 hv
  unfold spec_valid at hsv
  simp only [not_or, not_lt] at hsv
  refine ⟨h1, h2, hsv.1, hsv.2.1, ?_⟩
  intro st rest hq
  rcases bin_step_marks A xt grand_tot o st _ rest hq with e | ⟨s', hs', e⟩
  · exact Or.inl e
  · simp only [h, Option.some.injEq] at hs'
    subst hs'
    exact Or.inr e

/-- Witness for C4: on the three-row crosstab `find_best_split(0, 2, ...)` returns
row 1. -/
theorem population_floor_witness :
    find_best_split exact_q 0 2 xtab_three (grand_tots xtab_three) opts_four = some 1
    ∧ opts_four.min_cnt ≤ (population xtab_three 0 2 : Int)
    ∧ opts_four.min_cnt ≤ (population xtab_three 2 3 : Int) :=
  have h : find_best_split exact_q 0 2 xtab_three (grand_tots xtab_three) opts_four = some 1 := by
    decide!
  have t := population_floor exact_q xtab_three (grand_tots xtab_three) opts_four 0 2 1 h
  ⟨h, t.2.2.1, t.2.2.2.1⟩

/-- C5 (IV floor), as amended. In every arithmetic, whenever `find_best_split` returns
an index `s`, the information value that `calc_iv` computed for the cut after row `s`
(rounded as the arithmetic rounds) is finite (neither an infinity nor NaN) and not less
than `min_iv`; it is `>= min_iv` whenever `min_iv` is not NaN. A driver iteration that
takes the work item `[start, stop]` marks no row other than `s`. -/
theorem iv_floor (A : arith K) (xt : xtab K) (grand_tot : Dbl K × Dbl K)
    (o : opts K) (start stop s : Nat)
    (h : find_best_split A start stop xt grand_tot o = some s) :
    Dbl.isfinite (cut_iv A xt grand_tot start stop s).iv = true
    ∧ Dbl.lt (cut_iv A xt grand_tot start stop s).iv o.min_iv = false
    ∧ (Dbl.isnan o.min_iv = false →
        Dbl.le o.min_iv (cut_iv A xt grand_tot start stop s).iv = true)
    ∧ (∀ st rest, st.q = { start := start, stop := stop } :: rest →
        (bin_step A xt grand_tot o st).breaks = st.breaks
        ∨ (bin_step A xt grand_tot o st).breaks = st.breaks.set s 1) := by
  obtain ⟨h1, h2, hv, ⟨x, hx, _⟩, _, _⟩ := fbs_some A xt grand_tot o start stop s h
  have hlt : Dbl.lt (cut_iv A xt grand_tot start stop s).iv o.min_iv = false := by
    unfold cut_valid at hv
    rw [decide_eq_true_eq, fbs_valid_ne] at hv
    exact hv.2.2.1
  refine ⟨by rw [hx]; rfl, hlt, ?_, ?_⟩
  · intro hn
    exact dbl_not_lt_le hlt (by rw [hx]; rfl) hn
  · intro st rest hq
    rcases bin_step_marks A xt grand_tot o st _ rest hq with e | ⟨s', hs', e⟩
    · exact Or.inl e
    · simp only [h, Option.some.injEq] at hs'
      subst hs'
      exact Or.inr e

/-- Witness for C5 as amended: on the three-row crosstab with `min_iv = 0` the cut
after row 1 is returned. -/
theorem iv_floor_witness :
    find_best_split exact_q 0 2 xtab_three (grand_tots xtab_three) opts_four = some 1
    ∧ Dbl.isfinite (cut_iv exact_q xtab_three (grand_tots xtab_three) 0 2 1).iv = true
    ∧ Dbl.le opts_four.min_iv (cut_iv exact_q xtab_three (grand_tots xtab_three) 0 2 1).iv
        = true :=
  have h : find_best_split exact_q 0 2 xtab_three (grand_tots xtab_three) opts_four = some 1 := by
    decide!
  have t := iv_floor exact_q xtab_three (grand_tots xtab_three) opts_four 0 2 1 h
  ⟨h, t.1, t.2.2.1 rfl⟩

/-- Counterexample to C5 as stated: with `min_iv = NaN` the test `iv < min_iv` never
fires; on the crosstab of `x = [1,1,2,2]`, `y = [0,1,0,1]`, whose shares `1/2` and
logarithm of the ratio 1 involve no rounding, whatever the logarithm,
`find_best_split(0, 1, ...)` returns row 0, whose information value is not
`>= min_iv`. -/
theorem iv_floor_nan_threshold :
    ¬ ∃ ln : ℚ → ℚ, ∀ s,
      find_best_split (exact_arith ln) 0 1 (xtab_even ℚ) (grand_tots (xtab_even ℚ))
        (opts_nan ℚ) = some s →
      Dbl.isfinite (cut_iv (exact_arith ln) (xtab_even ℚ) (grand_tots (xtab_even ℚ))
        0 1 s).iv = true
      ∧ Dbl.le (opts_nan ℚ).min_iv
          (cut_iv (exact_arith ln) (xtab_even ℚ) (grand_tots (xtab_even ℚ)) 0 1 s).iv = true := by
  rintro ⟨ln, h⟩
  have h0 : find_best_split (exact_arith ln) 0 1 (xtab_even ℚ) (grand_tots (xtab_even ℚ))
    (opts_nan ℚ)
      = some 0 := by
    norm_num [find_best_split, xtab_even, grand_tots, opts_nan, get_xtab_totals, zero_sum,
      ones_sum, List.range', fbs_body, fbs_init, fbs_valid, calc_iv_exact, side_woe, side_iv,
      Dbl.add, Dbl.sub, Dbl.neg, Dbl.mul, Dbl.div, Dbl.log, Dbl.lt, Dbl.gt, Dbl.isinf, Dbl.ofNat,
      Dbl.ofInt]
  have := (h 0 h0).2
  simp [opts_nan, Dbl.le] at this

/-- C6 (monotonic trend per split).  For every options record with `monotonicity` in
`{-1, +1}`, in every arithmetic, whenever `find_best_split` returns an index `s`, the
trend sign of that cut (`+1` if `asc_woe > dsc_woe`, else `-1`, for the two weights of
evidence that `calc_iv` computed, rounded as the arithmetic rounds) equals
`monotonicity`; a driver iteration that takes the work item `[start, stop]` marks no row
other than `s`. -/
theorem monotonic_trend (A : arith K) (xt : xtab K) (grand_tot : Dbl K × Dbl K)
    (o : opts K) (start stop s : Nat) (hm : o.mono = 1 ∨ o.mono = -1)
    (h : find_best_split A start stop xt grand_tot o = some s) :
    woe_sign (cut_iv A xt grand_tot start stop s) = o.mono
    ∧ (∀ st rest, st.q = { start := start, stop := stop } :: rest →
        (bin_step A xt grand_tot o st).breaks = st.breaks
        ∨ (bin_step A xt grand_tot o st).breaks = st.breaks.set s 1) := by
  obtain ⟨h1, h2, hv, _, _, _⟩ := fbs_some A xt grand_tot o start stop s h
  unfold cut_valid at hv
  rw [decide_eq_true_eq, fbs_valid_ne] at hv
  refine ⟨hv.2.2.2.2 (by omega), ?_⟩
  intro st rest hq
  rcases bin_step_marks A xt grand_tot o st _ rest hq with e | ⟨s', hs', e⟩
  · exact Or.inl e
  · simp only [h, Option.some.injEq] at hs'
    subst hs'
    exact Or.inr e

/-- Witness for C6: on the three-row crosstab with `monotonicity = 1` the cut after
row 1 is returned. -/
theorem monotonic_trend_witness :
    (opts_mono.mono = 1 ∨ opts_mono.mono = -1)
    ∧ find_best_split exact_q 0 2 xtab_three (grand_tots xtab_three) opts_mono = some 1
    ∧ woe_sign (cut_iv exact_q xtab_three (grand_tots xtab_three) 0 2 1) = opts_mono.mono :=
  have h : find_best_split exact_q 0 2 xtab_three (grand_tots xtab_three) opts_mono = some 1 := by
    decide!
  ⟨Or.inl rfl, h,
    (monotonic_trend exact_q xtab_three (grand_tots xtab_three) opts_mono 0 2 1 (Or.inl rfl) h).1⟩

/-- C8 (best cut selection), as amended.  In every arithmetic, if `find_best_split`
returns an index `s`, then `s` lies in `[start, stop]`, the cut after `s` is valid under
the gating of step 3f, its information value is `>=` that of every valid cut of the
range whose information value is not NaN, and every valid cut with a lower index whose
information value is not NaN has a strictly smaller one; the information values are
those that `calc_iv` computed, rounded as the arithmetic rounds. -/
theorem best_cut_selection (A : arith K) (xt : xtab K) (grand_tot : Dbl K × Dbl K)
    (o : opts K) (start stop s : Nat)
    (h : find_best_split A start stop xt grand_tot o = some s) :
    start ≤ s ∧ s ≤ stop
    ∧ spec_valid A xt grand_tot o start stop s
    ∧ (∀ j, start ≤ j → j ≤ stop → spec_valid A xt grand_tot o start stop j →
        Dbl.isnan (cut_iv A xt grand_tot start stop j).iv = false →
        Dbl.le (cut_iv A xt grand_tot start stop j).iv
          (cut_iv A xt grand_tot start stop s).iv = true)
    ∧ (∀ j, start ≤ j → j < s → spec_valid A xt grand_tot o start stop j →
        Dbl.isnan (cut_iv A xt grand_tot start stop j).iv = false →
        Dbl.lt (cut_iv A xt grand_tot start stop j).iv
          (cut_iv A xt grand_tot start stop s).iv = true) := by
  obtain ⟨h1, h2, hv, ⟨x, hx, _⟩, hall, hlow⟩ := fbs_some A xt grand_tot o start stop s h
  refine ⟨h1, h2, (cut_valid_iff A xt grand_tot o start stop s h1 h2).1 hv, ?_, ?_⟩
  · intro j hj1 hj2 hjv hjn
    have := hall j hj1 hj2 ((cut_valid_iff A xt grand_tot o start stop j hj1 hj2).2 hjv)
    rw [hx] at this ⊢
    exact dbl_not_gt_le this hjn
  · intro j hj1 hj2 hjv hjn
    rcases hlow j hj1 hj2
      ((cut_valid_iff A xt grand_tot o start stop j hj1 (by omega)).2 hjv) with e | e
    · rw [hjn] at e; exact Bool.noConfusion e
    · exact e

/-- Witness for C8 as amended: on the three-row crosstab the cut after row 1 is
returned; it beats the valid cut after row 0. -/
theorem best_cut_selection_witness :
    find_best_split exact_q 0 2 xtab_three (grand_tots xtab_three) opts_four = some 1
    ∧ spec_valid exact_q xtab_three (grand_tots xtab_three) opts_four 0 2 1
    ∧ Dbl.lt (cut_iv exact_q xtab_three (grand_tots xtab_three) 0 2 0).iv
        (cut_iv exact_q xtab_three (grand_tots xtab_three) 0 2 1).iv = true :=
  have h : find_best_split exact_q 0 2 xtab_three (grand_tots xtab_three) opts_four = some 1 := by
    decide!
  have t := best_cut_selection exact_q xtab_three (grand_tots xtab_three) opts_four 0 2 1 h
  ⟨h, t.2.2.1, t.2.2.2.2 0 (by decide) (by decide)
    (by unfold spec_valid; decide!) (by decide!)⟩

/-- Counterexample to C8 as stated: on the crosstab of `x = [1,1,2,2]`,
`y = [0,1,0,1]` with `min_cnt = 0`, whose shares `1/2` and logarithm of the ratio 1
involve no rounding, whatever the logarithm, `find_best_split(0, 1, ...)`
returns row 0 (information value 0) although the cut after row 1 is valid under step
3f and its information value, NaN, is not `<=` that of row 0. -/
theorem best_cut_nan_rival :
    ¬ ∃ ln : ℚ → ℚ, ∀ s j,
      find_best_split (exact_arith ln) 0 1 (xtab_even ℚ) (grand_tots (xtab_even ℚ))
        (opts_free ℚ) = some s →
      0 ≤ j → j ≤ 1 →
      spec_valid (exact_arith ln) (xtab_even ℚ) (grand_tots (xtab_even ℚ)) (opts_free ℚ) 0 1 j →
      Dbl.le (cut_iv (exact_arith ln) (xtab_even ℚ) (grand_tots (xtab_even ℚ)) 0 1 j).iv
        (cut_iv (exact_arith ln) (xtab_even ℚ) (grand_tots (xtab_even ℚ)) 0 1 s).iv = true := by
  rintro ⟨ln, h⟩
  have h0 : find_best_split (exact_arith ln) 0 1 (xtab_even ℚ) (grand_tots (xtab_even ℚ))
    (opts_free ℚ)
      = some 0 := by
    norm_num [find_best_split, xtab_even, grand_tots, opts_free, get_xtab_totals, zero_sum,
      ones_sum, List.range', fbs_body, fbs_init, fbs_valid, calc_iv_exact, side_woe, side_iv,
      Dbl.add, Dbl.sub, Dbl.neg, Dbl.mul, Dbl.div, Dbl.log, Dbl.lt, Dbl.gt, Dbl.isinf, Dbl.ofNat,
      Dbl.ofInt]
  have hnan : (cut_iv (exact_arith ln) (xtab_even ℚ) (grand_tots (xtab_even ℚ))
    0 1 1).iv = Dbl.nan := by
    norm_num [cut_iv, asc_at, dsc_at, xtab_even, grand_tots, get_xtab_totals, zero_sum, ones_sum,
      List.range', calc_iv_exact, side_woe, side_iv, Dbl.add, Dbl.sub, Dbl.neg, Dbl.mul, Dbl.div,
      Dbl.log, Dbl.ofNat]
  have hv : spec_valid (exact_arith ln) (xtab_even ℚ) (grand_tots (xtab_even ℚ))
    (opts_free ℚ) 0 1 1 := by
    unfold spec_valid
    rw [hnan]
    norm_num [population, xtab_even, opts_free, zero_sum, ones_sum, List.range',
      Dbl.lt, Dbl.isinf]
  have := h 0 1 h0 (by decide) (by decide) hv
  rw [hnan] at this
  simp [Dbl.le] at this

/-- C9 (no-split result), as amended. In every arithmetic, `find_best_split` returns the
sentinel if and only if no cut `i` in `[start, stop]` is both valid under step 3f (none
of the five invalidity conditions holds) and has an information value greater than `-1`,
the initial `best_iv`; a valid cut whose information value is NaN is never retained. -/
theorem no_split_result (A : arith K) (xt : xtab K) (grand_tot : Dbl K × Dbl K)
    (o : opts K) (start stop : Nat) :
    find_best_split A start stop xt grand_tot o = none ↔
      ∀ i, start ≤ i → i ≤ stop →
        ¬ (spec_valid A xt grand_tot o start stop i
          ∧ Dbl.gt (cut_iv A xt grand_tot start stop i).iv (Dbl.fin (-1)) = true) := by
  rw [fbs_none_iff]
  constructor
  · intro h i h1 h2 hc
    exact h i h1 h2 ⟨(cut_valid_iff A xt grand_tot o start stop i h1 h2).2 hc.1, hc.2⟩
  · intro h i h1 h2 hc
    exact h i h1 h2 ⟨(cut_valid_iff A xt grand_tot o start stop i h1 h2).1 hc.1, hc.2⟩

/-- Counterexample to C9 as stated: on the one-row crosstab of `x = [1,1]`,
`y = [0,1]` with `min_cnt = 0`, whose only cut has an empty side and involves no
rounding, whatever the logarithm, `find_best_split(0, 0, ...)`
returns the sentinel although the cut after row 0 is valid under step 3f: its
information value is NaN, which fails `iv > best_iv`. -/
theorem no_split_nan_cut :
    ¬ ∃ ln : ℚ → ℚ,
      (find_best_split (exact_arith ln) 0 0 (xtab_one ℚ) (grand_tots (xtab_one ℚ))
        (opts_free ℚ) = none ↔
        ∀ i, 0 ≤ i → i ≤ 0 →
          ¬ spec_valid (exact_arith ln) (xtab_one ℚ) (grand_tots (xtab_one ℚ))
            (opts_free ℚ) 0 0 i) := by
  rintro ⟨ln, h⟩
  have h0 : find_best_split (exact_arith ln) 0 0 (xtab_one ℚ) (grand_tots (xtab_one ℚ))
    (opts_free ℚ)
      = none := by
    norm_num [find_best_split, xtab_one, grand_tots, opts_free, get_xtab_totals, zero_sum,
      ones_sum, List.range', fbs_body, fbs_init, fbs_valid, calc_iv_exact, side_woe, side_iv,
      Dbl.add, Dbl.sub, Dbl.neg, Dbl.mul, Dbl.div, Dbl.log, Dbl.lt, Dbl.gt, Dbl.isinf, Dbl.ofNat,
      Dbl.ofInt]
  have hnan : (cut_iv (exact_arith ln) (xtab_one ℚ) (grand_tots (xtab_one ℚ))
    0 0 0).iv = Dbl.nan := by
    norm_num [cut_iv, asc_at, dsc_at, xtab_one, grand_tots, get_xtab_totals, zero_sum, ones_sum,
      List.range', calc_iv_exact, side_woe, side_iv, Dbl.add, Dbl.sub, Dbl.neg, Dbl.mul, Dbl.div,
      Dbl.log, Dbl.ofNat]
  have hv : spec_valid (exact_arith ln) (xtab_one ℚ) (grand_tots (xtab_one ℚ))
    (opts_free ℚ) 0 0 0 := by
    unfold spec_valid
    rw [hnan]
    norm_num [population, xtab_one, opts_free, zero_sum, ones_sum, List.range',
      Dbl.lt, Dbl.isinf]
  exact (h.1 h0) 0 (le_refl _) (le_refl _) hv

/-- C10 (perfect-separation scenario), as amended. For the crosstab of
`x = [1,2,3,4,5,6,7,8]`, `y = [0,0,0,1,1,1,1,1]` with `min_iv = 0`, `min_cnt = 1`,
`max_bin = 4`, `monotonicity = 0`, in the arithmetic that rounds nothing, whatever the
logarithm: every cut of the range `[0, 7]`, the separating cut after row 2 included, has
an infinite or NaN information value; `find_best_split(0, 7, ...)` returns the sentinel;
`bin` accepts no split (`breaks` stays all zero, `num_bins` stays 1); and the returned
array holds the sentinel `-inf` followed by one slot that is never written, so the value
3 is not among the breakpoints. -/
theorem perfect_separation_no_split (ln : K → K) :
    (∀ i, i ≤ 7 →
      Dbl.isfinite (cut_iv (exact_arith ln) (xtab_sep K) (grand_tots (xtab_sep K))
        0 7 i).iv = false)
    ∧ find_best_split (exact_arith ln) 0 7 (xtab_sep K) (grand_tots (xtab_sep K))
      (opts_sep K) = none
    ∧ (bin_final (exact_arith ln) (xtab_sep K) (opts_sep K)).breaks = List.replicate 8 0
    ∧ (bin_final (exact_arith ln) (xtab_sep K) (opts_sep K)).num_bins = 1
    ∧ bin (exact_arith ln) (xtab_sep K) (opts_sep K) = [some Dbl.ninf, none]
    ∧ some (Dbl.fin 3) ∉ bin (exact_arith ln) (xtab_sep K) (opts_sep K) := by
  refine ⟨sep_cut_not_finite ln, sep_no_split ln, ?_, ?_, sep_bin ln, ?_⟩
  · rw [sep_final]
  · rw [sep_final]
  · rw [sep_bin]
    simp

/-- Counterexample to C10 as stated: on the scenario's crosstab and options, for no
choice of the logarithm does `bin` mark row 2 or return the value 3. -/
theorem perfect_separation_not_marked :
    ¬ ∃ ln : ℚ → ℚ,
      (bin_final (exact_arith ln) (xtab_sep ℚ) (opts_sep ℚ)).breaks.getD 2 0 = 1
      ∨ some (Dbl.fin 3) ∈ bin (exact_arith ln) (xtab_sep ℚ) (opts_sep ℚ) := by
  rintro ⟨ln, h | h⟩
  · rw [sep_final] at h
    simp at h
  · rw [sep_bin] at h
    simp at h

/-- C11 (degenerate input). For every crosstab with exactly one row, every options
record and every arithmetic, `find_best_split(0, 0, ...)` returns the sentinel, so `bin`
accepts no split: the driver loop leaves with `breaks` all zero and the bin counter at
1, and the returned array holds the sentinel `-inf` followed by no break value (its
second slot is never written). -/
theorem degenerate_input (A : arith K) (xt : xtab K) (o : opts K) (h : xt.size = 1) :
    find_best_split A 0 0 xt (grand_tots xt) o = none
    ∧ (bin_final A xt o).q = []
    ∧ (bin_final A xt o).breaks = [0]
    ∧ (bin_final A xt o).num_bins = 1
    ∧ marked_values xt (bin_final A xt o).breaks = []
    ∧ bin A xt o = [some Dbl.ninf, none] := by
  have h0 : find_best_split A 0 (xt.size - 1) xt (grand_tots xt) o = none := by
    rw [h]; exact fbs_single A xt (grand_tots xt) o 0
  have hf := bin_final_no_split A xt o h0
  refine ⟨fbs_single A xt (grand_tots xt) o 0, ?_, ?_, ?_, ?_, bin_no_split A xt o h0⟩
  · rw [hf]
  · rw [hf, h]; rfl
  · rw [hf]
  · rw [hf]
    apply List.eq_nil_of_length_eq_zero
    rw [marked_values_length, marked_count_init]

/-- Witness for C11: the one-row crosstab of `x = [1,1]`, `y = [0,1]`. -/
theorem degenerate_input_witness :
    (xtab_one ℚ).size = 1
    ∧ find_best_split exact_q 0 0 (xtab_one ℚ) (grand_tots (xtab_one ℚ)) (opts_free ℚ) = none
    ∧ bin exact_q (xtab_one ℚ) (opts_free ℚ) = [some Dbl.ninf, none] :=
  have t := degenerate_input exact_q (xtab_one ℚ) (opts_free ℚ) rfl
  ⟨rfl, t.1, t.2.2.2.2.2⟩

/-- C12 (population floor too high). For every crosstab of total population `N` and
every options record with `2 * min_cnt > N`, in every arithmetic, `find_best_split`
returns the sentinel for every range of rows of the table, so `bin` accepts no split:
`breaks` stays all zero, the bin counter stays 1 and no break value follows the
sentinel. -/
theorem floor_too_high (A : arith K) (xt : xtab K) (o : opts K)
    (h : (population xt 0 xt.size : Int) < 2 * o.min_cnt) :
    (∀ (grand_tot : Dbl K × Dbl K) (start stop : Nat), stop < xt.size →
      find_best_split A start stop xt grand_tot o = none)
    ∧ (bin_final A xt o).breaks = List.replicate xt.size 0
    ∧ (bin_final A xt o).num_bins = 1
    ∧ marked_values xt (bin_final A xt o).breaks = []
    ∧ bin A xt o = [some Dbl.ninf, none] := by
  have h0 : find_best_split A 0 (xt.size - 1) xt (grand_tots xt) o = none := by
    by_cases hs : xt.size = 0
    · rw [hs]; exact fbs_single A xt (grand_tots xt) o 0
    · exact fbs_floor_too_high A xt (grand_tots xt) o h 0 (xt.size - 1) (by omega)
  have hf := bin_final_no_split A xt o h0
  refine ⟨fun g a b hb => fbs_floor_too_high A xt g o h a b hb, ?_, ?_, ?_,
    bin_no_split A xt o h0⟩
  · rw [hf]
  · rw [hf]
  · rw [hf]
    apply List.eq_nil_of_length_eq_zero
    rw [marked_values_length, marked_count_init]

/-- Witness for C12: the three-row crosstab has 19 observations and `min_cnt = 10`. -/
theorem floor_too_high_witness :
    (population xtab_three 0 xtab_three.size : Int) < 2 * opts_ten.min_cnt
    ∧ find_best_split exact_q 0 2 xtab_three (grand_tots xtab_three) opts_ten = none
    ∧ bin exact_q xtab_three opts_ten = [some Dbl.ninf, none] :=
  have h : (population xtab_three 0 xtab_three.size : Int) < 2 * opts_ten.min_cnt := by
    decide
  have t := floor_too_high exact_q xtab_three opts_ten h
  ⟨h, t.1 _ 0 2 (by decide), t.2.2.2.2⟩

/-- C13 (breaks lifecycle). In every run of `bin`, in every arithmetic, after any number
`n` of iterations of the driver loop the number of marked rows equals `num_bins - 1`,
the number of accepted splits; a split accepted by the next iteration marks a row of the
table whose `breaks` entry was 0, raising the number of marked rows by exactly one; and
no iteration unmarks a row. -/
theorem breaks_lifecycle (A : arith K) (xt : xtab K) (o : opts K) (n : Nat) :
    (marked_count xt (bin_iter A xt (grand_tots xt) o n (bin_init xt)).breaks : Int)
      = (bin_iter A xt (grand_tots xt) o n (bin_init xt)).num_bins - 1
    ∧ (∀ w rest s, (bin_iter A xt (grand_tots xt) o n (bin_init xt)).q = w :: rest →
        find_best_split A w.start w.stop xt (grand_tots xt) o = some s →
        (bin_iter A xt (grand_tots xt) o n (bin_init xt)).num_bins < o.max_bin →
        s < xt.size
        ∧ (bin_iter A xt (grand_tots xt) o n (bin_init xt)).breaks.getD s 0 = 0
        ∧ (bin_iter A xt (grand_tots xt) o (n + 1) (bin_init xt)).breaks
            = (bin_iter A xt (grand_tots xt) o n (bin_init xt)).breaks.set s 1
        ∧ marked_count xt (bin_iter A xt (grand_tots xt) o (n + 1) (bin_init xt)).breaks
            = marked_count xt (bin_iter A xt (grand_tots xt) o n (bin_init xt)).breaks + 1)
    ∧ (∀ i, (bin_iter A xt (grand_tots xt) o n (bin_init xt)).breaks.getD i 0 = 1 →
        (bin_iter A xt (grand_tots xt) o (n + 1) (bin_init xt)).breaks.getD i 0 = 1) := by
  have hinv := queue_inv_iter A xt (grand_tots xt) o n
  have hsucc := bin_iter_succ A xt (grand_tots xt) o n (bin_init xt)
  generalize bin_iter A xt (grand_tots xt) o n (bin_init xt) = st at hinv hsucc
  rw [hsucc]
  refine ⟨hinv.count, ?_, ?_⟩
  · intro w rest s hq hf hb
    have hw : w ∈ st.q := by rw [hq]; exact List.mem_cons_self _ _
    obtain ⟨_, bw2⟩ := hinv.bounds w hw
    obtain ⟨hs1, hs2⟩ := fbs_lt_stop A xt (grand_tots xt) o w.start w.stop s hf
    have hs0 := hinv.inside w hw s hs1 hs2
    have hsz : s < xt.size := by omega
    have hstep : (bin_step A xt (grand_tots xt) o st).breaks = st.breaks.set s 1 := by
      unfold bin_step
      rw [hq]
      simp only [hf, hb, if_true]
    refine ⟨hsz, hs0, hstep, ?_⟩
    rw [hstep]
    exact marked_count_set_eq xt st.breaks s hinv.len hsz hs0
  · intro i hi
    rcases bin_step_cases A xt (grand_tots xt) o st with
      ⟨_, e⟩ | ⟨w, rest, _, _, e⟩ | ⟨w, rest, s, hq, hf, _, e⟩
    · rw [e]; exact hi
    · rw [e]; exact hi
    · rw [e]
      simp only
      have hw : w ∈ st.q := by rw [hq]; exact List.mem_cons_self _ _
      obtain ⟨_, bw2⟩ := hinv.bounds w hw
      obtain ⟨hs1, hs2⟩ := fbs_lt_stop A xt (grand_tots xt) o w.start w.stop s hf
      by_cases hne : i = s
      · subst hne
        exact getD_set_self st.breaks i 1 (by rw [hinv.len]; omega)
      · rw [getD_set_ne _ _ _ _ hne]; exact hi

/-- C15 (work-item invariant). For every crosstab with at least one row, in every
arithmetic, after any number `n` of iterations of the driver loop of `bin` every work
item `[start, stop]` in the queue satisfies `start <= stop < size`, the work items in
the queue are pairwise disjoint, `find_best_split` never returns the last row `stop` of
its range (so both children of a split are non-empty), and the split index that the next
iteration can use is a valid index of `breaks` and of the crosstab rows. -/
theorem work_item_invariant (A : arith K) (xt : xtab K) (o : opts K) (h : 1 ≤ xt.size)
    (n : Nat) :
    (∀ w ∈ (bin_iter A xt (grand_tots xt) o n (bin_init xt)).q,
      w.start ≤ w.stop ∧ w.stop < xt.size)
    ∧ (bin_iter A xt (grand_tots xt) o n (bin_init xt)).q.Pairwise work.disjoint
    ∧ (∀ (grand_tot : Dbl K × Dbl K) (start stop s : Nat),
        find_best_split A start stop xt grand_tot o = some s → start ≤ s ∧ s < stop)
    ∧ (∀ w rest s, (bin_iter A xt (grand_tots xt) o n (bin_init xt)).q = w :: rest →
        find_best_split A w.start w.stop xt (grand_tots xt) o = some s →
        w.start ≤ s ∧ s + 1 ≤ w.stop ∧ s < xt.size
        ∧ s < (bin_iter A xt (grand_tots xt) o n (bin_init xt)).breaks.length) := by
  have hinv := queue_inv_iter A xt (grand_tots xt) o n
  generalize bin_iter A xt (grand_tots xt) o n (bin_init xt) = st at hinv
  refine ⟨?_, hinv.disj, fun g a b s hs => fbs_lt_stop A xt g o a b s hs, ?_⟩
  · intro w hw
    obtain ⟨b1, b2⟩ := hinv.bounds w hw
    exact ⟨b1, by omega⟩
  · intro w rest s hq hf
    have hw : w ∈ st.q := by rw [hq]; exact List.mem_cons_self _ _
    obtain ⟨_, bw2⟩ := hinv.bounds w hw
    obtain ⟨hs1, hs2⟩ := fbs_lt_stop A xt (grand_tots xt) o w.start w.stop s hf
    exact ⟨hs1, hs2, by omega, by rw [hinv.len]; omega⟩

/-- Witness for C15: the three-row crosstab after one iteration of the driver loop,
when the queue holds the two children `[0, 1]` and `[2, 2]`. -/
theorem work_item_invariant_witness :
    1 ≤ xtab_three.size
    ∧ (bin_iter exact_q xtab_three (grand_tots xtab_three) opts_four 1 (bin_init xtab_three)).q
        = [{ start := 0, stop := 1 }, { start := 2, stop := 2 }]
    ∧ (bin_iter exact_q xtab_three (grand_tots xtab_three) opts_four 1
        (bin_init xtab_three)).q.Pairwise work.disjoint :=
  ⟨by decide, by decide!,
    (work_item_invariant exact_q xtab_three opts_four (by decide) 1).2.1⟩

/-- C20 (final bins respect the population floor). For every run of `bin`, in every
arithmetic, in which at least one split is accepted (the bin counter ends at 2 or more),
every final bin, that is every maximal run of consecutive rows delimited by the marked
rows and the ends of the table, has a total population of at least `min_cnt`. -/
theorem final_bins_floor (A : arith K) (xt : xtab K) (o : opts K)
    (h : 2 ≤ (bin_final A xt o).num_bins) (a b : Nat)
    (hbin : is_bin xt (bin_final A xt o).breaks a b) :
    o.min_cnt ≤ (population xt a (b + 1) : Int) := by
  have hinv : queue_inv xt o (bin_final A xt o) :=
    queue_inv_iter A xt (grand_tots xt) o (bin_fuel o)
  rcases hinv.floor a b hbin with ⟨ha, hb⟩ | hp
  · exfalso
    have hc := hinv.count
    have hpos : 0 < marked_count xt (bin_final A xt o).breaks := by omega
    obtain ⟨i, hi⟩ := List.exists_mem_of_length_pos hpos
    simp only [marked_rows, List.mem_filter, List.mem_range, decide_eq_true_eq] at hi
    have hlast := hinv.below_last i hi.2
    exact hbin.2.2.2.2 i (by omega) (by omega) hi.2
  · exact hp

/-- Witness for C20: on the three-row crosstab `bin` marks rows 0 and 1, and the
final bin made of row 0 alone has 4 observations, at least `min_cnt = 1`. -/
theorem final_bins_floor_witness :
    2 ≤ (bin_final exact_q xtab_three opts_four).num_bins
    ∧ is_bin xtab_three (bin_final exact_q xtab_three opts_four).breaks 0 0
    ∧ opts_four.min_cnt ≤ (population xtab_three 0 1 : Int) :=
  have h : 2 ≤ (bin_final exact_q xtab_three opts_four).num_bins := by decide!
  have hb : (bin_final exact_q xtab_three opts_four).breaks = [1, 1, 0] := by decide!
  have hbin : is_bin xtab_three (bin_final exact_q xtab_three opts_four).breaks 0 0 := by
    rw [hb]
    exact ⟨le_refl _, by decide, Or.inl rfl, Or.inr rfl, fun i h1 h2 => by omega⟩
  ⟨h, hbin, final_bins_floor exact_q xtab_three opts_four h 0 0 hbin⟩

/-- C16 (FIFO budget consumption). For every crosstab and options with `max_bin = 3`, in
every arithmetic, if `find_best_split` returns `s` for the whole range and `s'` for the
left child `[0, s]`, then after two iterations of the driver loop both splits are
accepted and the right child `[s + 1, size - 1]` is still waiting at the head of the
queue with the budget exhausted; when the loop has left, the rows marked in `breaks` are
exactly `s'` and `s`, whatever `find_best_split` returns for the right child, and `bin`
returns the sentinel, the values of rows `s'` and `s`, and one slot that is never
written. -/
theorem fifo_budget (A : arith K) (xt : xtab K) (o : opts K) (s s' : Nat)
    (hmax : o.max_bin = 3)
    (hs : find_best_split A 0 (xt.size - 1) xt (grand_tots xt) o = some s)
    (hs' : find_best_split A 0 s xt (grand_tots xt) o = some s') :
    bin_iter A xt (grand_tots xt) o 2 (bin_init xt)
      = { q := [{ start := s + 1, stop := xt.size - 1 }, { start := 0, stop := s' },
            { start := s' + 1, stop := s }],
          breaks := ((List.replicate xt.size 0).set s 1).set s' 1,
          num_bins := 3 }
    ∧ (bin_final A xt o).breaks = ((List.replicate xt.size 0).set s 1).set s' 1
    ∧ (bin_final A xt o).num_bins = 3
    ∧ s' < s ∧ s < xt.size
    ∧ (∀ i, (bin_final A xt o).breaks.getD i 0 = 1 ↔ i = s' ∨ i = s)
    ∧ marked_rows xt (bin_final A xt o).breaks = [s', s]
    ∧ bin A xt o = [some Dbl.ninf, some (xt.values.getD s' Dbl.nan),
        some (xt.values.getD s Dbl.nan), none] := by
  obtain ⟨_, hss⟩ := fbs_lt_stop A xt (grand_tots xt) o 0 (xt.size - 1) s hs
  obtain ⟨_, hss'⟩ := fbs_lt_stop A xt (grand_tots xt) o 0 s s' hs'
  have hsz : s < xt.size := by omega
  have h1 : bin_step A xt (grand_tots xt) o (bin_init xt)
      = { q := [{ start := 0, stop := s }, { start := s + 1, stop := xt.size - 1 }],
          breaks := (List.replicate xt.size 0).set s 1, num_bins := 2 } :=
    bin_step_accept A xt (grand_tots xt) o (bin_init xt) { start := 0, stop := xt.size - 1 }
      [] s rfl hs (by rw [hmax]; simp [bin_init])
  have h2 : bin_iter A xt (grand_tots xt) o 2 (bin_init xt)
      = { q := [{ start := s + 1, stop := xt.size - 1 }, { start := 0, stop := s' },
            { start := s' + 1, stop := s }],
          breaks := ((List.replicate xt.size 0).set s 1).set s' 1,
          num_bins := 3 } := by
    rw [bin_iter, bin_iter, h1, bin_iter]
    exact bin_step_accept A xt (grand_tots xt) o _ { start := 0, stop := s }
      [{ start := s + 1, stop := xt.size - 1 }] s' rfl hs' (by rw [hmax]; norm_num)
  have hfuel : bin_fuel o = 2 + 3 := by simp [bin_fuel, hmax]
  have hdrain := bin_iter_drain A xt (grand_tots xt) o
    (bin_iter A xt (grand_tots xt) o 2 (bin_init xt)) (by rw [h2, hmax]; norm_num) 3
  rw [← bin_iter_add, ← hfuel] at hdrain
  change (bin_final A xt o).breaks = _ ∧ (bin_final A xt o).num_bins = _ at hdrain
  rw [h2] at hdrain
  obtain ⟨hbr, hnb⟩ := hdrain
  simp only at hbr hnb
  have hiff : ∀ i, (bin_final A xt o).breaks.getD i 0 = 1 ↔ i = s' ∨ i = s := by
    intro i
    rw [hbr]
    exact two_marks xt.size s s' hsz (by omega) i
  have hrows := marked_rows_two xt (bin_final A xt o).breaks s s' hss' hsz hiff
  refine ⟨h2, hbr, hnb, hss', hsz, hiff, hrows, ?_⟩
  rw [bin, assemble_eq, marked_values, hrows, hnb]
  rfl

/-- Witness for C16: on the three-row crosstab with `max_bin = 3` the whole range is
split after row 1 and its left child after row 0. -/
theorem fifo_budget_witness :
    opts_three.max_bin = 3
    ∧ find_best_split exact_q 0 (xtab_three.size - 1) xtab_three (grand_tots xtab_three)
        opts_three = some 1
    ∧ find_best_split exact_q 0 1 xtab_three (grand_tots xtab_three) opts_three = some 0
    ∧ marked_rows xtab_three (bin_final exact_q xtab_three opts_three).breaks = [0, 1] :=
  have h1 : find_best_split exact_q 0 (xtab_three.size - 1) xtab_three (grand_tots xtab_three)
      opts_three = some 1 := by decide!
  have h2 : find_best_split exact_q 0 1 xtab_three (grand_tots xtab_three) opts_three
      = some 0 := by decide!
  ⟨rfl, h1, h2, (fifo_budget exact_q xtab_three opts_three 1 0 rfl h1 h2).2.2.2.2.2.2.1⟩

/-- C14 (termination). For every crosstab, every options record and every arithmetic the
driver loop of `bin` has left after `2 * max(max_bin, 1) - 1` iterations, each of which
takes one work item from the queue: the queue is then empty and further iterations
change nothing. For every range with `start <= stop` the loop of `find_best_split`
leaves after exactly `stop - start + 1` iterations (it has not left after fewer), with
the result of `find_best_split` in `best_split_idx`. -/
theorem bin_terminates (A : arith K) (xt : xtab K) (o : opts K) :
    (bin_iter A xt (grand_tots xt) o (2 * max o.max_bin 1 - 1).toNat (bin_init xt)).q = []
    ∧ (∀ n, (2 * max o.max_bin 1 - 1).toNat ≤ n →
        bin_iter A xt (grand_tots xt) o n (bin_init xt) = bin_final A xt o)
    ∧ (∀ (grand_tot : Dbl K × Dbl K) (start stop : Nat), start ≤ stop →
        (∃ st, fbs_loop A xt (get_xtab_totals xt start (stop + 1)) grand_tot o stop
            (stop - start + 1) start fbs_init = some st
          ∧ st.best_split_idx = find_best_split A start stop xt grand_tot o)
        ∧ ∀ fuel, fuel < stop - start + 1 →
            fbs_loop A xt (get_xtab_totals xt start (stop + 1)) grand_tot o stop
              fuel start fbs_init = none) := by
  rw [bin_fuel_eq]
  refine ⟨bin_final_q A xt o, ?_, ?_⟩
  · intro n hn
    obtain ⟨k, rfl⟩ := Nat.exists_eq_add_of_le hn
    rw [bin_iter_add]
    exact bin_iter_empty A xt (grand_tots xt) o k _ (bin_final_q A xt o)
  · intro g start stop hle
    refine ⟨⟨_, fbs_loop_eq A xt _ g o stop (stop - start + 1) start fbs_init (by omega), ?_⟩,
      ?_⟩
    · rw [find_best_split, show stop - start + 1 = stop + 1 - start by omega]
    · intro fuel hf
      exact fbs_loop_short A xt _ g o stop fuel start fbs_init (by omega)

/-- C18 (the information value is non-negative).  Over the reals, with the natural
logarithm and no rounding, for all strictly positive side counts `(a0, a1)`, `(d0, d1)` and strictly
positive grand totals `(t0, t1)`, the value `calc_iv(asc, dsc, tots).iv` is the finite
number `ln((a0/t0)/(a1/t1)) * (a0/t0 - a1/t1) + ln((d0/t0)/(d1/t1)) * (d0/t0 - d1/t1)`,
which is `>= 0`; and in `find_best_split`, every cut whose information value is finite
passes the test `iv > -1` against the initial `best_iv`. -/
theorem iv_nonneg (a0 a1 d0 d1 t0 t1 : ℝ) (ha0 : 0 < a0) (ha1 : 0 < a1) (hd0 : 0 < d0)
    (hd1 : 0 < d1) (ht0 : 0 < t0) (ht1 : 0 < t1) :
    (calc_iv (exact_arith Real.log) (Dbl.fin a0, Dbl.fin a1) (Dbl.fin d0, Dbl.fin d1)
        (Dbl.fin t0, Dbl.fin t1)).iv
      = Dbl.fin (Real.log ((a0 / t0) / (a1 / t1)) * (a0 / t0 - a1 / t1)
          + Real.log ((d0 / t0) / (d1 / t1)) * (d0 / t0 - d1 / t1))
    ∧ 0 ≤ Real.log ((a0 / t0) / (a1 / t1)) * (a0 / t0 - a1 / t1)
          + Real.log ((d0 / t0) / (d1 / t1)) * (d0 / t0 - d1 / t1)
    ∧ (∀ (xt : xtab ℝ) (start stop i : Nat), start ≤ i → i ≤ stop →
        Dbl.isfinite (cut_iv (exact_arith Real.log) xt
          (Dbl.fin t0, Dbl.fin t1) start stop i).iv = true →
        Dbl.gt (cut_iv (exact_arith Real.log) xt (Dbl.fin t0, Dbl.fin t1) start stop i).iv
          (Dbl.fin (-1)) = true) := by
  refine ⟨?_, ?_, ?_⟩
  · rw [(calc_iv_sides Real.log _ _ _).1, (side_pos Real.log a0 a1 t0 t1 ha0 ha1 ht0 ht1).2,
      (side_pos Real.log d0 d1 t0 t1 hd0 hd1 ht0 ht1).2, dbl_add_fin]
  · exact add_nonneg
      (side_term_nonneg _ _ (div_pos ha0 ht0) (div_pos ha1 ht1))
      (side_term_nonneg _ _ (div_pos hd0 ht0) (div_pos hd1 ht1))
  · intro xt start stop i h1 h2 hfin
    cases hiv : (cut_iv (exact_arith Real.log) xt (Dbl.fin t0, Dbl.fin t1) start stop i).iv with
    | fin x =>
      have := cut_iv_real_nonneg xt t0 t1 ht0 ht1 start stop i h1 h2 x hiv
      simp only [Dbl.gt, Dbl.lt, decide_eq_true_eq]
      linarith
    | nan => rw [hiv] at hfin; exact Bool.noConfusion hfin
    | pinf => rw [hiv] at hfin; exact Bool.noConfusion hfin
    | ninf => rw [hiv] at hfin; exact Bool.noConfusion hfin

/-- Witness for C18: the cut after row 0 of the three-row crosstab, sides `(3, 1)` and
`(6, 9)` against the grand totals `(9, 10)`. -/
theorem iv_nonneg_witness :
    (0 : ℝ) < 3 ∧ (0 : ℝ) < 1 ∧ (0 : ℝ) < 6 ∧ (0 : ℝ) < 9 ∧ (0 : ℝ) < 10
    ∧ 0 ≤ Real.log (((3 : ℝ) / 9) / (1 / 10)) * (3 / 9 - 1 / 10)
          + Real.log (((6 : ℝ) / 9) / (9 / 10)) * (6 / 9 - 9 / 10) :=
  ⟨by norm_num, by norm_num, by norm_num, by norm_num, by norm_num,
    (iv_nonneg 3 1 6 9 9 10 (by norm_num) (by norm_num) (by norm_num) (by norm_num)
      (by norm_num) (by norm_num)).2.1⟩

/-- C17 (single-value WOE). Over the reals, without rounding, for observations of both
classes at `x == v` and positive totals, `calc_sv_woe` returns
`ln((ones_ct / tots[1]) / (zero_ct / tots[0]))`, the negative of the weight of evidence
`ln((zero_ct / tots[0]) / (ones_ct / tots[1]))` that `calc_iv` computes for a side with
the same counts. On `x = [1,1,1,2]`, `y = [0,0,1,1]`, `v = 1`, totals `(2, 2)` it
returns `-ln 2` where `calc_iv` computes `ln 2`, and the two differ. -/
theorem sv_woe_inverted :
    (∀ (dx dy : List (Dbl ℝ)) (size : Nat) (v : Dbl ℝ) (t0 t1 : ℝ), 0 < t0 → 0 < t1 →
      0 < sv_zero_ct dx dy size v → 0 < sv_ones_ct dx dy size v →
      calc_sv_woe (exact_arith Real.log) dx dy size v (Dbl.fin t0, Dbl.fin t1)
        = Dbl.fin (- Real.log (((sv_zero_ct dx dy size v : ℝ) / t0)
            / ((sv_ones_ct dx dy size v : ℝ) / t1)))
      ∧ (calc_iv (exact_arith Real.log)
          (Dbl.ofNat (sv_zero_ct dx dy size v), Dbl.ofNat (sv_ones_ct dx dy size v))
          (Dbl.ofNat (sv_zero_ct dx dy size v), Dbl.ofNat (sv_ones_ct dx dy size v))
          (Dbl.fin t0, Dbl.fin t1)).asc_woe
        = Dbl.fin (Real.log (((sv_zero_ct dx dy size v : ℝ) / t0)
            / ((sv_ones_ct dx dy size v : ℝ) / t1))))
    ∧ calc_sv_woe (exact_arith Real.log) (sv_dx ℝ) (sv_dy ℝ) 4 (Dbl.fin 1) (Dbl.fin 2, Dbl.fin 2)
        = Dbl.fin (- Real.log 2)
    ∧ (calc_iv (exact_arith Real.log) (Dbl.fin 2, Dbl.fin 1) (Dbl.fin 2, Dbl.fin 1)
        (Dbl.fin 2, Dbl.fin 2)).asc_woe = Dbl.fin (Real.log 2)
    ∧ calc_sv_woe (exact_arith Real.log) (sv_dx ℝ) (sv_dy ℝ) 4 (Dbl.fin 1) (Dbl.fin 2, Dbl.fin 2)
        ≠ (calc_iv (exact_arith Real.log) (Dbl.fin 2, Dbl.fin 1) (Dbl.fin 2, Dbl.fin 1)
            (Dbl.fin 2, Dbl.fin 2)).asc_woe := by
  have hlog : 0 < Real.log 2 := Real.log_pos (by norm_num)
  have hsv : calc_sv_woe (exact_arith Real.log) (sv_dx ℝ) (sv_dy ℝ) 4 (Dbl.fin 1)
    (Dbl.fin 2, Dbl.fin 2)
      = Dbl.fin (- Real.log 2) := by
    rw [calc_sv_woe_real _ _ _ _ 2 2 (by norm_num) (by norm_num)
      (by rw [sv_counts.1]; decide) (by rw [sv_counts.2]; decide), sv_counts.1, sv_counts.2]
    norm_num
  have hiv : (calc_iv (exact_arith Real.log) (Dbl.fin 2, Dbl.fin 1) (Dbl.fin 2, Dbl.fin 1)
      (Dbl.fin 2, Dbl.fin 2)).asc_woe = Dbl.fin (Real.log 2) := by
    rw [(calc_iv_sides Real.log _ _ _).2.1,
      (side_pos Real.log 2 1 2 2 (by norm_num) (by norm_num) (by norm_num) (by norm_num)).1]
    norm_num
  refine ⟨?_, hsv, hiv, ?_⟩
  · intro dx dy size v t0 t1 ht0 ht1 hz ho
    refine ⟨calc_sv_woe_real dx dy size v t0 t1 ht0 ht1 hz ho, ?_⟩
    rw [(calc_iv_sides Real.log _ _ _).2.1]
    simp only [Dbl.ofNat]
    exact (side_pos Real.log _ _ t0 t1 (Nat.cast_pos.2 hz) (Nat.cast_pos.2 ho) ht0 ht1).1
  · rw [hsv, hiv]
    intro e
    have := Dbl.fin.inj e
    linarith

/-- C7 (monotone final bins), as amended.  For every run of `bin` with `monotonicity`
in `{-1, +1}`, in every arithmetic: any two adjacent final bins `[x, s]` and
`[s + 1, c]` lie on the two sides of a cut that `find_best_split` returned for a range
`[a, b]` containing both (`a <= x`, `c <= b`), and the weights of evidence of the two
sides of that cut, the rows `a, ..., s` and the rows `s + 1, ..., b` with their aggregate
counts taken against the grand totals, are ordered in the configured direction: the
first is greater when `monotonicity = +1` and not greater when `monotonicity = -1`.
When the run accepts exactly one split, the two sides are the two final bins. -/
theorem monotone_sides (A : arith K) (xt : xtab K) (o : opts K)
    (hm : o.mono = 1 ∨ o.mono = -1) (x s c : Nat)
    (h1 : is_bin xt (bin_final A xt o).breaks x s)
    (h2 : is_bin xt (bin_final A xt o).breaks (s + 1) c) :
    ∃ a b, a ≤ x ∧ c ≤ b
      ∧ find_best_split A a b xt (grand_tots xt) o = some s
      ∧ (o.mono = 1 → Dbl.gt (bin_woe A xt a s) (bin_woe A xt (s + 1) b) = true)
      ∧ (o.mono = -1 → Dbl.gt (bin_woe A xt a s) (bin_woe A xt (s + 1) b) = false)
      ∧ ((bin_final A xt o).num_bins = 2 → a = x ∧ b = c) := by
  obtain ⟨hq, ht⟩ : queue_inv xt o (bin_final A xt o) ∧ trend_inv A xt o (bin_final A xt o) :=
    trend_inv_iter A xt o (bin_fuel o)
  obtain ⟨a, b, hax, hsb, hcb, hbr, hf⟩ := adjacent_bins_cut A xt o _ ht x s c h1 h2
  obtain ⟨has, _⟩ := fbs_lt_stop A xt (grand_tots xt) o a b s hf
  have hsign := fbs_trend A xt (grand_tots xt) o a b s (by omega) hf
  obtain ⟨e1, e2⟩ := cut_iv_woe A xt a b s has (le_of_lt hsb)
  have hw := woe_sign_eq _ _ hsign
  rw [e1, e2] at hw
  refine ⟨a, b, hax, hcb, hf, hw.1, hw.2, ?_⟩
  intro hn
  have hcount : marked_count xt (bin_final A xt o).breaks = 1 := by
    have := hq.count
    omega
  obtain ⟨hxs, _, hl1, hr1, _⟩ := h1
  obtain ⟨hsc, hc, _, hr2, _⟩ := h2
  have hs : (bin_final A xt o).breaks.getD s 0 = 1 := by
    rcases hr1 with e | e
    · omega
    · exact e
  have hssz := hq.below_last s hs
  have huniq : ∀ i, (bin_final A xt o).breaks.getD i 0 = 1 → i = s := by
    intro i hi
    exact marked_unique xt _ hcount i s (by have := hq.below_last i hi; omega) (by omega) hi hs
  have hx0 : x = 0 := by
    rcases hl1 with e | e
    · exact e
    · have := huniq _ e; omega
  have hbl : b = xt.size - 1 := by
    rcases hbr with e | e
    · exact e
    · have := huniq _ e; omega
  have hcl : c = xt.size - 1 := by
    rcases hr2 with e | e
    · exact e
    · have := huniq _ e; omega
  constructor
  · omega
  · omega

/-- Witness for C7 as amended: in binary64 arithmetic, on the four-row crosstab with
`monotonicity = 1`, the last two final bins are the rows 2 and 3; the break between
them is the index that `find_best_split` returned for the range `[1, 3]`, whose sides
(rows 1 to 2, row 3) have computed weights of evidence in descending order. -/
theorem monotone_sides_witness :
    (opts_mono.mono = 1 ∨ opts_mono.mono = -1)
    ∧ is_bin xtab_round (bin_final ieee xtab_round opts_mono).breaks 2 2
    ∧ is_bin xtab_round (bin_final ieee xtab_round opts_mono).breaks 3 3
    ∧ find_best_split ieee 1 3 xtab_round (grand_tots xtab_round) opts_mono = some 2
    ∧ Dbl.gt (bin_woe ieee xtab_round 1 2) (bin_woe ieee xtab_round 3 3) = true
    ∧ ∃ a b, a ≤ 2 ∧ 3 ≤ b
      ∧ find_best_split ieee a b xtab_round (grand_tots xtab_round) opts_mono = some 2
      ∧ (opts_mono.mono = 1 →
          Dbl.gt (bin_woe ieee xtab_round a 2) (bin_woe ieee xtab_round (2 + 1) b) = true)
      ∧ (opts_mono.mono = -1 →
          Dbl.gt (bin_woe ieee xtab_round a 2) (bin_woe ieee xtab_round (2 + 1) b) = false)
      ∧ ((bin_final ieee xtab_round opts_mono).num_bins = 2 → a = 2 ∧ b = 3) :=
  ⟨Or.inl rfl, round_bins.1, round_bins.2, round_splits.1, round_woe.1,
    monotone_sides ieee xtab_round opts_mono (Or.inl rfl) 2 2 3 round_bins.1 round_bins.2⟩

/-- Counterexample to C7 as stated: the crosstab with counts `zero_ct = [3, 5, 1, 4]`,
`ones_ct = [1, 5, 1, 4]` and `min_iv = 0`, `min_cnt = 1`, `max_bin = 4`,
`monotonicity = 1`, in binary64 arithmetic.  The last three rows have the same share of
each class, `(c/13) / (c/11)`, but the quotients computed for the counts 6 and 5 round
to a double one unit in the last place above the one computed for the counts 4 and 1.
So `find_best_split` returns row 2 for the range `[1, 3]`, where it returns the sentinel
in the arithmetic that rounds nothing, and then row 1 for the range `[1, 2]`; `bin`
returns the breaks 1, 2, 3; and the final bins made of row 2 and of row 3 have the same
weight of evidence, as computed in binary64 and as computed without rounding, whatever
the logarithm: the first is not greater than the second. -/
theorem monotone_bins_rounding :
    opts_mono.mono = 1
    ∧ find_best_split ieee 1 3 xtab_round (grand_tots xtab_round) opts_mono = some 2
    ∧ find_best_split ieee 1 2 xtab_round (grand_tots xtab_round) opts_mono = some 1
    ∧ (∀ ln : ℚ → ℚ,
        find_best_split (exact_arith ln) 1 3 xtab_round (grand_tots xtab_round) opts_mono
          = none)
    ∧ (bin_final ieee xtab_round opts_mono).breaks = [1, 1, 1, 0]
    ∧ bin ieee xtab_round opts_mono
        = [some Dbl.ninf, some (Dbl.fin 1), some (Dbl.fin 2), some (Dbl.fin 3), none]
    ∧ is_bin xtab_round (bin_final ieee xtab_round opts_mono).breaks 2 2
    ∧ is_bin xtab_round (bin_final ieee xtab_round opts_mono).breaks 3 3
    ∧ bin_woe ieee xtab_round 2 2 = bin_woe ieee xtab_round 3 3
    ∧ (∀ ln : ℚ → ℚ,
        bin_woe (exact_arith ln) xtab_round 2 2 = bin_woe (exact_arith ln) xtab_round 3 3)
    ∧ ¬ monotone_bins ieee xtab_round (bin_final ieee xtab_round opts_mono).breaks
        opts_mono.mono
    ∧ (∀ ln : ℚ → ℚ,
        ¬ monotone_bins (exact_arith ln) xtab_round
          (bin_final ieee xtab_round opts_mono).breaks opts_mono.mono) := by
  have hb : (bin_final ieee xtab_round opts_mono).breaks = [1, 1, 1, 0] := by
    rw [round_final]
  have hbin : bin ieee xtab_round opts_mono
      = [some Dbl.ninf, some (Dbl.fin 1), some (Dbl.fin 2), some (Dbl.fin 3), none] := by
    rw [bin, round_final]
    rfl
  have h1 := round_bins.1
  have h2 := round_bins.2
  have hw : bin_woe ieee xtab_round 2 2 = bin_woe ieee xtab_round 3 3 := round_woe.2
  have hx : ∀ ln : ℚ → ℚ,
      bin_woe (exact_arith ln) xtab_round 2 2 = bin_woe (exact_arith ln) xtab_round 3 3 := by
    intro ln
    norm_num [bin_woe, xtab_round, grand_tots, get_xtab_totals, zero_sum, ones_sum, List.range',
      calc_iv_exact, side_woe, Dbl.div, Dbl.log, Dbl.ofNat]
  have hgt : ∀ v : Dbl ℚ, Dbl.gt v v = false := fun v => dbl_lt_irrefl v
  refine ⟨rfl, round_splits.1, round_splits.2, ?_, hb, hbin, h1, h2, hw, hx, ?_, ?_⟩
  · intro ln
    norm_num [find_best_split, xtab_round, grand_tots, opts_mono, get_xtab_totals, zero_sum,
      ones_sum, List.range', fbs_body, fbs_init, fbs_valid, woe_sign, calc_iv_exact, side_woe,
      side_iv, Dbl.add, Dbl.sub, Dbl.neg, Dbl.mul, Dbl.div, Dbl.log, Dbl.lt, Dbl.gt, Dbl.isinf,
      Dbl.ofNat, Dbl.ofInt]
  · intro h
    have := (h 2 2 3 h1 h2).1 rfl
    rw [hw, hgt] at this
    exact Bool.noConfusion this
  · intro ln h
    have := (h 2 2 3 h1 h2).1 rfl
    rw [hx ln, hgt] at this
    exact Bool.noConfusion this

end Binnr
